import Mathlib

/-!
Interactive to-do list (`main.go`): shallow embedding and verified properties

The program keeps a slice of `Todo` records in the package variable `todos`,
edits it from a text menu and stores it as JSON in `todos.json`.

Conventions of the embedding

* A Go `string` is a sequence of bytes (`GoString`), valid UTF-8 or not.
* The package variable `todos` is passed in and returned explicitly.
* Every operation takes, as arguments, the values that its calls of `getInput`
  return, in order, and returns the bytes it writes to standard output, prompts
  included. `getInput` returns a line of standard input with the surrounding
  white space trimmed; standard input is taken to be a terminal, which hands
  over one line for each call.
* Go `int` is 64 bits wide (`wrapInt`).
* The tables of package `unicode` for runes above `MaxASCII` are a parameter
  (`UnicodeTables`); the ASCII part of every case mapping is written out.
-/

namespace TodoList

/-- A Go string: its bytes in order. -/
abbrev GoString := List Nat

/-! ## Package `unicode/utf8` -/

/-- The replacement rune U+FFFD, `utf8.RuneError`. -/
def RuneError : Nat := 0xFFFD

/-- Table `first` of `unicode/utf8`: information about the first byte of an
encoding (`as`, `xx`, `s1` .. `s7`). -/
def first (b : Nat) : Nat :=
  if b < 0x80 then 0xF0
  else if b < 0xC2 then 0xF1
  else if b < 0xE0 then 0x02
  else if b = 0xE0 then 0x13
  else if b < 0xED then 0x03
  else if b = 0xED then 0x23
  else if b < 0xF0 then 0x03
  else if b = 0xF0 then 0x34
  else if b < 0xF4 then 0x04
  else if b = 0xF4 then 0x44
  else 0xF1

/-- Table `acceptRanges` of `unicode/utf8`: the range `(lo, hi)` allowed for
the second byte. -/
def acceptRanges (i : Nat) : Nat × Nat :=
  match i with
  | 0 => (0x80, 0xBF)
  | 1 => (0xA0, 0xBF)
  | 2 => (0x80, 0x9F)
  | 3 => (0x90, 0xBF)
  | 4 => (0x80, 0x8F)
  | _ => (0, 0)

/-- Go `utf8.DecodeRuneInString`: the first rune of `s` and its width in bytes;
`(RuneError, 1)` for an invalid encoding, `(RuneError, 0)` for the empty
string. `x % 32` is `x & mask2`, `x * 64` is `x << 6`, and so on. -/
def decodeRune (s : GoString) : Nat × Nat :=
  match s with
  | [] => (RuneError, 0)
  | s0 :: t0 =>
    let x := first s0
    if x ≥ 0xF0 then
      (if x = 0xF0 then s0 else RuneError, 1)
    else
      let sz := x % 8
      let accept := acceptRanges (x / 16)
      if s.length < sz then (RuneError, 1)
      else
        match t0 with
        | [] => (RuneError, 1)
        | s1 :: t1 =>
          if s1 < accept.1 ∨ accept.2 < s1 then (RuneError, 1)
          else if sz ≤ 2 then (s0 % 32 * 64 + s1 % 64, 2)
          else
            match t1 with
            | [] => (RuneError, 1)
            | s2 :: t2 =>
              if s2 < 0x80 ∨ 0xBF < s2 then (RuneError, 1)
              else if sz ≤ 3 then (s0 % 16 * 4096 + s1 % 64 * 64 + s2 % 64, 3)
              else
                match t2 with
                | [] => (RuneError, 1)
                | s3 :: _ =>
                  if s3 < 0x80 ∨ 0xBF < s3 then (RuneError, 1)
                  else (s0 % 8 * 262144 + s1 % 64 * 4096 + s2 % 64 * 64 + s3 % 64, 4)

/-- Go `utf8.EncodeRune` (and `utf8.AppendRune`): the bytes written for rune
`r`; a surrogate or a value above `MaxRune` is written as `RuneError`. -/
def encodeRune (r : Nat) : GoString :=
  if r ≤ 0x7F then [r]
  else if r ≤ 0x7FF then [0xC0 + r / 64, 0x80 + r % 64]
  else if r > 0x10FFFF ∨ (0xD800 ≤ r ∧ r ≤ 0xDFFF) then [0xEF, 0xBF, 0xBD]
  else if r ≤ 0xFFFF then [0xE0 + r / 4096, 0x80 + r / 64 % 64, 0x80 + r % 64]
  else [0xF0 + r / 262144, 0x80 + r / 4096 % 64, 0x80 + r / 64 % 64, 0x80 + r % 64]

/-- The loop of `runes`; `fuel` bounds the number of runes still to read. -/
def runesLoop : Nat → GoString → List Nat
  | 0, _ => []
  | fuel + 1, s =>
    match s with
    | [] => []
    | _ :: _ => (decodeRune s).1 :: runesLoop fuel (s.drop (decodeRune s).2)

/-- The runes that `for _, r := range s` yields: every invalid byte gives one
`RuneError`. -/
def runes (s : GoString) : List Nat := runesLoop s.length s

/-- The loop of `validString`. -/
def validLoop : Nat → GoString → Bool
  | 0, s => s.isEmpty
  | fuel + 1, s =>
    match s with
    | [] => true
    | _ :: _ =>
      if (decodeRune s).1 = RuneError ∧ (decodeRune s).2 = 1 then false
      else validLoop fuel (s.drop (decodeRune s).2)

/-- Go `utf8.ValidString`: `s` consists entirely of valid UTF-8 encodings. -/
def validString (s : GoString) : Bool := validLoop s.length s

/-- Go `utf8.ValidRune`: `r` is a Unicode scalar value, a character. -/
def validRune (r : Nat) : Bool := decide (r ≤ 0x10FFFF ∧ ¬ (0xD800 ≤ r ∧ r ≤ 0xDFFF))

/-- The UTF-8 text of a sequence of characters (the Go conversion `string(rs)`
of a slice of runes): their encodings one after another. -/
def encodeAll (rs : List Nat) : GoString := rs.flatMap encodeRune

/-- The bytes of a string constant of the source file (Go source text is
UTF-8). -/
def str (s : String) : GoString := s.toList.flatMap (fun c => encodeRune c.toNat)

/-! ## Package `unicode` and package `strings` -/

/-- The case tables of package `unicode` for runes above `MaxASCII`. -/
structure UnicodeTables where
  /-- The result of `unicode.To(unicode.LowerCase, r)`, the table lookup of `unicode.ToLower`. -/
  toLower : Nat → Nat
  /-- The result of `unicode.SimpleFold(r)` from the tables `caseOrbit` and `CaseRanges`. -/
  simpleFold : Nat → Nat

/-- Go `unicode.ToLower`. -/
def unicodeToLower (U : UnicodeTables) (r : Nat) : Nat :=
  if r ≤ 0x7F then
    if 0x41 ≤ r ∧ r ≤ 0x5A then r + 0x20 else r
  else U.toLower r

/-- Table `asciiFold` of package `unicode`: the next rune of the folding orbit
of an ASCII rune; `k` continues to the Kelvin sign U+212A and `s` to the long
s U+017F. -/
def asciiFold (r : Nat) : Nat :=
  if 0x41 ≤ r ∧ r ≤ 0x5A then r + 0x20
  else if r = 0x6B then 0x212A
  else if r = 0x73 then 0x17F
  else if 0x61 ≤ r ∧ r ≤ 0x7A then r - 0x20
  else r

/-- Go `unicode.SimpleFold`. -/
def SimpleFold (U : UnicodeTables) (r : Nat) : Nat :=
  if r > 0x10FFFF then r
  else if r < 0x80 then asciiFold r
  else U.simpleFold r

/-- The loop `for r != sr && r < tr { r = unicode.SimpleFold(r) }` of
`strings.EqualFold`, run for at most `fuel` iterations. -/
def foldWalk (U : UnicodeTables) (sr tr : Nat) : Nat → Nat → Nat
  | 0, r => r
  | fuel + 1, r => if r ≠ sr ∧ r < tr then foldWalk U sr tr fuel (SimpleFold U r) else r

/-- The comparison of one pair of runes in `strings.EqualFold`. The walk along
the folding orbit is given one step for every rune there is. -/
def equalFoldRune (U : UnicodeTables) (sr tr : Nat) : Bool :=
  if tr = sr then true
  else
    let lo := if tr < sr then tr else sr
    let hi := if tr < sr then sr else tr
    if hi < 0x80 then decide (0x41 ≤ lo ∧ lo ≤ 0x5A ∧ hi = lo + 0x20)
    else decide (foldWalk U lo hi 0x110000 (SimpleFold U lo) = hi)

/-- The rune by rune comparison of `strings.EqualFold`. -/
def equalFoldRunes (U : UnicodeTables) : List Nat → List Nat → Bool
  | [], [] => true
  | sr :: s, tr :: t => equalFoldRune U sr tr && equalFoldRunes U s t
  | _, _ => false

/-- Go `strings.EqualFold`: `s` and `t`, read as UTF-8, are equal under simple
Unicode case folding. (The byte loop that Go runs over a common ASCII start of
both strings makes the same comparison on one-byte runes.) -/
def EqualFold (U : UnicodeTables) (s t : GoString) : Bool :=
  equalFoldRunes U (runes s) (runes t)

/-- Go `strings.ToLower`: the ASCII-only case maps bytes, any other string is
decoded and every rune mapped by `unicode.ToLower` and encoded again. -/
def ToLower (U : UnicodeTables) (s : GoString) : GoString :=
  if s.all (fun c => decide (c < 0x80)) then
    s.map (fun c => if 0x41 ≤ c ∧ c ≤ 0x5A then c + 0x20 else c)
  else (runes s).flatMap (fun c => encodeRune (unicodeToLower U c))

/-- Go `strings.Contains`: `substr` occurs in `s` at some byte offset. -/
def Contains (s substr : GoString) : Bool :=
  match s with
  | [] => substr.isEmpty
  | c :: rest => substr.isPrefixOf (c :: rest) || Contains rest substr

/-! ## Package `fmt` -/

/-- Decimal digits of `n`, most significant first. -/
def fmtDigits : Nat → Nat → GoString
  | 0, _ => []
  | fuel + 1, n => if n < 10 then [0x30 + n] else fmtDigits fuel (n / 10) ++ [0x30 + n % 10]

/-- The text of an integer under the verb `%d`. -/
def fmtInt (i : Int) : GoString :=
  if i < 0 then 0x2D :: fmtDigits (i.natAbs + 1) i.natAbs
  else fmtDigits (i.toNat + 1) i.toNat

/-- Go `fmt.Println` of one string operand. -/
def println (s : GoString) : GoString := s ++ [0x0A]

/-- Digit test of the scanner of package `fmt` for the verb `%d`. -/
def isDigit (b : Nat) : Bool := decide (0x30 ≤ b ∧ b ≤ 0x39)

/-- The value of a run of decimal digits. -/
def parseDecimal (digits : GoString) : Nat :=
  digits.foldl (fun n d => n * 10 + (d - 0x30)) 0

/-- Go `fmt.Sscanf(s, "%d", &id)` on a string without leading white space: an
optional sign, then as many decimal digits as follow (at least one); what
follows the digits is not read. `none` stands for a scan error (no digit, or a
value outside the 64-bit range), which leaves `id` as it was. -/
def sscanInt (s : GoString) : Option Int :=
  let neg := decide (s.head? = some 0x2D)
  let rest := if s.head? = some 0x2B ∨ s.head? = some 0x2D then s.tail else s
  let tok := rest.takeWhile isDigit
  if tok = [] then none
  else
    let v : Int := if neg then -(parseDecimal tok : Int) else (parseDecimal tok : Int)
    if -(2 : Int) ^ 63 ≤ v ∧ v < (2 : Int) ^ 63 then some v else none

/-- Arithmetic of Go `int` (64 bits, two's complement): the representative of
`x` in the range from `-2^63` to `2^63 - 1`. -/
def wrapInt (x : Int) : Int := (x + 2 ^ 63) % 2 ^ 64 - 2 ^ 63

/-! ## `main.go` -/

/-- The record type `Todo`. -/
structure Todo where
  Title : GoString
  Done : Bool
  Category : GoString
  Priority : GoString
deriving DecidableEq, Repr

/-- What `getInput(prompt)` prints before it reads a line. -/
def getInputPrompt (prompt : GoString) : GoString := prompt ++ str " "

/-- The line `fmt.Printf` writes for the record at index `i` in `listTodos`. -/
def listTodosLine (i : Nat) (todo : Todo) : GoString :=
  let status := if todo.Done then str "Done" else str "Not Done"
  fmtInt ((i : Int) + 1) ++ str ". [" ++ status ++ str "] " ++ todo.Title
    ++ str " (Category: " ++ todo.Category ++ str ", Priority: " ++ todo.Priority ++ str ")\n"

/-- The loop `for i, todo := range todos` of `listTodos`, from index `i` on. -/
def listTodosLoop : Nat → List Todo → GoString
  | _, [] => []
  | i, todo :: rest => listTodosLine i todo ++ listTodosLoop (i + 1) rest

/-- Go `listTodos`: the bytes printed for the slice passed in. -/
def listTodos (todos : List Todo) : GoString :=
  if todos.length = 0 then println (str "📭 No to-dos found!")
  else println (str "\n📌 Your To-Do List:") ++ listTodosLoop 0 todos

/-- Go `getPriorityInput` on the lines that its calls of `getInput` return, in
order. The result is the value returned, the lines not yet read, and the bytes
printed; `none` when the lines end before one is accepted (the loop is still
asking). -/
def getPriorityInput (U : UnicodeTables) : List GoString → Option (GoString × List GoString × GoString)
  | [] => none
  | priority :: rest =>
    let lower := ToLower U priority
    if lower = str "high" ∨ lower = str "medium" ∨ lower = str "low" then
      some (priority, rest, getInputPrompt (str "Enter the priority (High, Medium, Low):"))
    else
      match getPriorityInput U rest with
      | none => none
      | some (p, rest1, out) =>
        some (p, rest1, getInputPrompt (str "Enter the priority (High, Medium, Low):")
          ++ println (str "❌ Invalid priority. Please enter 'High', 'Medium', or 'Low'.") ++ out)

/-- Go `addTodo`: `title` and `category` are the first two lines read, `lines`
the ones after them. The result is the new `todos`, the lines not yet read and
the bytes printed. -/
def addTodo (U : UnicodeTables) (todos : List Todo) (title category : GoString)
    (lines : List GoString) : Option (List Todo × List GoString × GoString) :=
  match getPriorityInput U lines with
  | none => none
  | some (priority, rest, out) =>
    let todo : Todo := { Title := title, Category := category, Priority := priority, Done := false }
    some (todos ++ [todo], rest,
      getInputPrompt (str "Enter the title of the to-do:")
        ++ getInputPrompt (str "Enter the category (e.g., Work, Personal):")
        ++ out ++ println (str "✅ To-Do added successfully!"))

/-- Go `getTodoID` on the line read: the number scanned, less one. -/
def getTodoID (idStr : GoString) : Int :=
  let id : Int := match sscanInt idStr with
    | some v => v
    | none => 0
  wrapInt (id - 1)

/-- Go `markTodoDone`: the new `todos` and the bytes printed. -/
def markTodoDone (todos : List Todo) (idStr : GoString) : List Todo × GoString :=
  let id := getTodoID idStr
  if id < 0 ∨ id ≥ (todos.length : Int) then
    (todos, getInputPrompt (str "Enter the ID of the to-do to mark as done:")
      ++ println (str "❌ Invalid ID."))
  else
    (todos.modify (fun todo => { todo with Done := true }) id.toNat,
      getInputPrompt (str "Enter the ID of the to-do to mark as done:")
        ++ println (str "✅ To-Do marked as done!"))

/-- Go `deleteTodo`: the new `todos` and the bytes printed. -/
def deleteTodo (todos : List Todo) (idStr : GoString) : List Todo × GoString :=
  let id := getTodoID idStr
  if id < 0 ∨ id ≥ (todos.length : Int) then
    (todos, getInputPrompt (str "Enter the ID of the to-do to delete:")
      ++ println (str "❌ Invalid ID."))
  else
    (todos.take id.toNat ++ todos.drop (id.toNat + 1),
      getInputPrompt (str "Enter the ID of the to-do to delete:")
        ++ println (str "🗑️ To-Do deleted successfully!"))

/-- Go `filterByCategory`: the bytes printed. -/
def filterByCategory (U : UnicodeTables) (todos : List Todo) (category : GoString) : GoString :=
  let filtered := todos.foldl
    (fun filtered todo => if EqualFold U todo.Category category then filtered ++ [todo] else filtered) []
  getInputPrompt (str "Enter the category to filter by:") ++ listTodos filtered

/-- Go `listPendingOrCompleted`: the bytes printed. -/
def listPendingOrCompleted (todos : List Todo) (status : GoString) : GoString :=
  let filtered := todos.foldl
    (fun filtered todo =>
      if (status = str "pending" ∧ todo.Done = false) ∨ (status = str "completed" ∧ todo.Done = true)
      then filtered ++ [todo] else filtered) []
  getInputPrompt (str "Enter 'pending' to list only pending to-dos or 'completed' for completed ones:")
    ++ listTodos filtered

/-- Go `searchTodos`: the bytes printed. -/
def searchTodos (U : UnicodeTables) (todos : List Todo) (keyword : GoString) : GoString :=
  let results := todos.foldl
    (fun results todo =>
      if Contains (ToLower U todo.Title) (ToLower U keyword) then results ++ [todo] else results) []
  getInputPrompt (str "Enter a keyword to search:") ++ listTodos results

/-! ## Package `encoding/json`, as far as `saveTodos` and `loadTodos` use it -/

/-- The digit `"0123456789abcdef"[n]`. -/
def hexDigit (n : Nat) : Nat := if n < 10 then 0x30 + n else 0x57 + n

/-- Table `htmlSafeSet` of `encoding/json`: the ASCII bytes written without an
escape when HTML escaping is on (the default of an `Encoder`). -/
def htmlSafeSet (b : Nat) : Bool :=
  decide (0x20 ≤ b ∧ b < 0x80 ∧ b ≠ 0x22 ∧ b ≠ 0x26 ∧ b ≠ 0x3C ∧ b ≠ 0x3E ∧ b ≠ 0x5C)

/-- The loop of `appendString` of `encoding/json`, without the two quotes:
control bytes, the quote, the backslash and `<`, `>`, `&` are escaped, an
invalid byte is written as the escape of U+FFFD, U+2028 and U+2029 are escaped,
and every other rune is copied. From Go 1.22 on (`go122`) backspace and form
feed are written as two-character escapes, before that as `\u0008` and
`\u000c`. -/
def appendStringLoop (go122 : Bool) : Nat → GoString → GoString
  | 0, _ => []
  | fuel + 1, src =>
    match src with
    | [] => []
    | b :: rest =>
      if b < 0x80 then
        (if htmlSafeSet b then [b]
         else if b = 0x5C ∨ b = 0x22 then [0x5C, b]
         else if go122 = true ∧ b = 0x08 then [0x5C, 0x62]
         else if go122 = true ∧ b = 0x0C then [0x5C, 0x66]
         else if b = 0x0A then [0x5C, 0x6E]
         else if b = 0x0D then [0x5C, 0x72]
         else if b = 0x09 then [0x5C, 0x74]
         else [0x5C, 0x75, 0x30, 0x30, hexDigit (b / 16), hexDigit (b % 16)])
          ++ appendStringLoop go122 fuel rest
      else if (decodeRune src).1 = RuneError ∧ (decodeRune src).2 = 1 then
        [0x5C, 0x75, 0x66, 0x66, 0x66, 0x64] ++ appendStringLoop go122 fuel (src.drop (decodeRune src).2)
      else if (decodeRune src).1 = 0x2028 ∨ (decodeRune src).1 = 0x2029 then
        [0x5C, 0x75, 0x32, 0x30, 0x32, hexDigit ((decodeRune src).1 % 16)]
          ++ appendStringLoop go122 fuel (src.drop (decodeRune src).2)
      else
        src.take (decodeRune src).2 ++ appendStringLoop go122 fuel (src.drop (decodeRune src).2)

/-- The JSON text `appendString` writes for a Go string. -/
def appendString (go122 : Bool) (src : GoString) : GoString :=
  [0x22] ++ appendStringLoop go122 src.length src ++ [0x22]

/-- The JSON text of one `Todo`: its fields in the order of declaration, under
the names of the `json` tags. -/
def encodeTodo (go122 : Bool) (todo : Todo) : GoString :=
  str "\x7b\"title\":" ++ appendString go122 todo.Title
    ++ str ",\"done\":" ++ (if todo.Done then str "true" else str "false")
    ++ str ",\"category\":" ++ appendString go122 todo.Category
    ++ str ",\"priority\":" ++ appendString go122 todo.Priority ++ str "\x7d"

/-- The elements of a JSON array, separated by commas. -/
def encodeElems (go122 : Bool) : List Todo → GoString
  | [] => []
  | [todo] => encodeTodo go122 todo
  | todo :: rest => encodeTodo go122 todo ++ [0x2C] ++ encodeElems go122 rest

/-- What `json.NewEncoder(file).Encode(todos)` writes: `null` for a nil
slice, an array otherwise, and a newline. `isNil` tells whether the slice is
nil; only an empty slice can be. -/
def encode (go122 : Bool) (todos : List Todo) (isNil : Bool) : GoString :=
  (if isNil ∧ todos = [] then str "null" else [0x5B] ++ encodeElems go122 todos ++ [0x5D]) ++ [0x0A]

/-- The value of a hexadecimal digit, if `b` is one. -/
def hexVal (b : Nat) : Option Nat :=
  if 0x30 ≤ b ∧ b ≤ 0x39 then some (b - 0x30)
  else if 0x61 ≤ b ∧ b ≤ 0x66 then some (b - 0x61 + 10)
  else if 0x41 ≤ b ∧ b ≤ 0x46 then some (b - 0x41 + 10)
  else none

/-- Function `getu4` of `encoding/json`: the number of a `\uXXXX` escape at the
start of `s`; `none` where Go returns `-1`. -/
def getu4 (s : GoString) : Option Nat :=
  match s with
  | e :: u :: a :: b :: c :: d :: _ =>
    if e = 0x5C ∧ u = 0x75 then
      match hexVal a, hexVal b, hexVal c, hexVal d with
      | some x3, some x2, some x1, some x0 => some (((x3 * 16 + x2) * 16 + x1) * 16 + x0)
      | _, _, _, _ => none
    else none
  | _ => none

/-- Go `utf16.DecodeRune`: the rune of a surrogate pair, `RuneError` when the
two values are not a pair. -/
def utf16DecodeRune (r1 r2 : Nat) : Nat :=
  if 0xD800 ≤ r1 ∧ r1 < 0xDC00 ∧ 0xDC00 ≤ r2 ∧ r2 < 0xE000 then
    (r1 - 0xD800) * 1024 + (r2 - 0xDC00) + 0x10000
  else RuneError

/-- The byte a two-character escape stands for. -/
def escapeByte (e : Nat) : Option Nat :=
  if e = 0x22 ∨ e = 0x5C ∨ e = 0x2F then some e
  else if e = 0x62 then some 0x08
  else if e = 0x66 then some 0x0C
  else if e = 0x6E then some 0x0A
  else if e = 0x72 then some 0x0D
  else if e = 0x74 then some 0x09
  else none

/-- Puts `pre` before the string of a partial result. -/
def prepend (pre : GoString) (r : Option (GoString × GoString)) : Option (GoString × GoString) :=
  match r with
  | none => none
  | some (x, rest) => some (pre ++ x, rest)

/-- The string literal whose opening quote has just been read: the scanner of
`encoding/json` finds its end and `unquote` gives its value. The result is the
value and what follows the closing quote; `none` for a syntax error. Invalid
UTF-8 and unpaired surrogate escapes become U+FFFD. -/
def unquoteLoop : Nat → GoString → Option (GoString × GoString)
  | 0, _ => none
  | fuel + 1, s =>
    match s with
    | [] => none
    | c :: t =>
      if c = 0x5C then
        match t with
        | [] => none
        | e :: t1 =>
          if e = 0x75 then
            match getu4 s with
            | none => none
            | some rr =>
              if 0xD800 ≤ rr ∧ rr < 0xE000 then
                let dec := match getu4 (s.drop 6) with
                  | some rr1 => utf16DecodeRune rr rr1
                  | none => RuneError
                if dec ≠ RuneError then prepend (encodeRune dec) (unquoteLoop fuel (s.drop 12))
                else prepend (encodeRune RuneError) (unquoteLoop fuel (s.drop 6))
              else prepend (encodeRune rr) (unquoteLoop fuel (s.drop 6))
          else
            match escapeByte e with
            | none => none
            | some b => prepend [b] (unquoteLoop fuel t1)
      else if c = 0x22 then some ([], t)
      else if c < 0x20 then none
      else if c < 0x80 then prepend [c] (unquoteLoop fuel t)
      else prepend (encodeRune (decodeRune s).1) (unquoteLoop fuel (s.drop (decodeRune s).2))

/-- Function `isSpace` of the scanner of `encoding/json`. -/
def isSpace (c : Nat) : Bool := decide (c = 0x20 ∨ c = 0x09 ∨ c = 0x0D ∨ c = 0x0A)

/-- Drops leading JSON white space. -/
def skipSpace (s : GoString) : GoString := s.dropWhile isSpace

/-- A JSON string literal at the start of `s`. -/
def decodeString (fuel : Nat) (s : GoString) : Option (GoString × GoString) :=
  match s with
  | [] => none
  | c :: t => if c = 0x22 then unquoteLoop fuel t else none

/-- A value for a field of type `string`: a string literal, or `null`, which
leaves the field as it is. -/
def decodeStringField (fuel : Nat) (old : GoString) (s : GoString) : Option (GoString × GoString) :=
  if (str "null").isPrefixOf s then some (old, s.drop 4)
  else decodeString fuel s

/-- A value for a field of type `bool`: `true`, `false`, or `null`, which
leaves the field as it is. -/
def decodeBoolField (old : Bool) (s : GoString) : Option (Bool × GoString) :=
  if (str "null").isPrefixOf s then some (old, s.drop 4)
  else if (str "true").isPrefixOf s then some (true, s.drop 4)
  else if (str "false").isPrefixOf s then some (false, s.drop 5)
  else none

/-- The value of the member named `key` of an object, stored into the field of
`todo` with that `json` tag. -/
def decodeField (fuel : Nat) (todo : Todo) (key s : GoString) : Option (Todo × GoString) :=
  if key = str "title" then
    match decodeStringField fuel todo.Title s with
    | some (v, rest) => some ({ todo with Title := v }, rest)
    | none => none
  else if key = str "done" then
    match decodeBoolField todo.Done s with
    | some (v, rest) => some ({ todo with Done := v }, rest)
    | none => none
  else if key = str "category" then
    match decodeStringField fuel todo.Category s with
    | some (v, rest) => some ({ todo with Category := v }, rest)
    | none => none
  else if key = str "priority" then
    match decodeStringField fuel todo.Priority s with
    | some (v, rest) => some ({ todo with Priority := v }, rest)
    | none => none
  else none

/-- The members of an object from the first key on, up to the closing brace. -/
def decodeMembers : Nat → Todo → GoString → Option (Todo × GoString)
  | 0, _, _ => none
  | fuel + 1, todo, s =>
    match decodeString fuel s with
    | none => none
    | some (key, s1) =>
      match skipSpace s1 with
      | [] => none
      | c :: s2 =>
        if c = 0x3A then
          match decodeField fuel todo key (skipSpace s2) with
          | none => none
          | some (todo1, s3) =>
            match skipSpace s3 with
            | [] => none
            | d :: s4 =>
              if d = 0x2C then decodeMembers fuel todo1 (skipSpace s4)
              else if d = 0x7D then some (todo1, s4)
              else none
        else none

/-- One element of the array, decoded into a new `Todo`: an object, or `null`,
which leaves the zero value. -/
def decodeElement (fuel : Nat) (s : GoString) : Option (Todo × GoString) :=
  if (str "null").isPrefixOf s then some (⟨[], false, [], []⟩, s.drop 4)
  else
    match s with
    | [] => none
    | c :: t =>
      if c = 0x7B then
        match skipSpace t with
        | [] => none
        | d :: t1 =>
          if d = 0x7D then some (⟨[], false, [], []⟩, t1)
          else decodeMembers fuel ⟨[], false, [], []⟩ (d :: t1)
      else none

/-- The elements of an array from the first one on, up to the closing bracket. -/
def decodeElems : Nat → GoString → Option (List Todo × GoString)
  | 0, _ => none
  | fuel + 1, s =>
    match decodeElement fuel s with
    | none => none
    | some (todo, s1) =>
      match skipSpace s1 with
      | [] => none
      | c :: s2 =>
        if c = 0x2C then
          match decodeElems fuel (skipSpace s2) with
          | none => none
          | some (todos, rest) => some (todo :: todos, rest)
        else if c = 0x5D then some ([todo], s2)
        else none

/-- What `json.NewDecoder(file).Decode(&todos)` stores into a nil `todos`, for
the first JSON value of `data`. The documents modelled are `null` and arrays of
`null` and of objects whose members carry the four `json` tags of `Todo`, in
any order and any number, with values of the type of the field, and any white
space JSON allows; `none` stands for every other input (a syntax error, a value
of another type, a key that is no tag). -/
def decodeTodos (data : GoString) : Option (List Todo) :=
  let s := skipSpace data
  if (str "null").isPrefixOf s then some []
  else
    match s with
    | [] => none
    | c :: t =>
      if c = 0x5B then
        match skipSpace t with
        | [] => none
        | d :: t1 =>
          if d = 0x5D then some []
          else
            match decodeElems data.length (d :: t1) with
            | none => none
            | some (todos, _) => some todos
      else none

/-- Go `saveTodos`: the content of `todos.json` afterwards and the bytes
printed. `file` is the content before (`none` when there is no file),
`createErr` the error of `os.Create` if it fails, and `isNil` tells whether
`todos` is the nil slice, and `go122` whether the release of Go is 1.22 or
later. The write itself is taken to succeed. -/
def saveTodos (go122 : Bool) (todos : List Todo) (isNil : Bool) (createErr : Option GoString)
    (file : Option GoString) : Option GoString × GoString :=
  match createErr with
  | some err => (file, println (str "❌ Error saving to-dos: " ++ err))
  | none => (some (encode go122 todos isNil), [])

/-- Go `loadTodos` at the start of `main`, when `todos` is nil: the slice
afterwards and the bytes printed. `file` is the content of `todos.json`,
`none` when it cannot be opened. The result is `none` when the decoder reports
an error or the document is outside `decodeTodos`. -/
def loadTodos (file : Option GoString) : Option (List Todo × GoString) :=
  match file with
  | none => some ([], println (str "📂 No existing to-dos found."))
  | some data =>
    match decodeTodos data with
    | some todos => some (todos, [])
    | none => none

/-! ## The wording of the specification -/

/-- Spec: the entry of a record in a listing,
`position. [Done|Not Done] title (Category: c, Priority: p)`. -/
def specEntry (position : Nat) (todo : Todo) : GoString :=
  fmtInt (position : Int) ++ str ". [" ++ (if todo.Done then str "Done" else str "Not Done")
    ++ str "] " ++ todo.Title ++ str " (Category: " ++ todo.Category
    ++ str ", Priority: " ++ todo.Priority ++ str ")"

/-- Spec: the entry `p` is, letter case ignored, one of High, Medium, Low. -/
def specPriority (U : UnicodeTables) (p : GoString) : Bool :=
  decide (ToLower U p = ToLower U (str "High") ∨ ToLower U p = ToLower U (str "Medium")
    ∨ ToLower U p = ToLower U (str "Low"))

/-- Spec: the bytes (or runes) `a` and `b` are equal, or are the upper-case
and the lower-case form of one ASCII letter. -/
def specSameLetter (a b : Nat) : Prop :=
  a = b ∨ (0x41 ≤ a ∧ a ≤ 0x5A ∧ b = a + 0x20) ∨ (0x41 ≤ b ∧ b ≤ 0x5A ∧ a = b + 0x20)

instance specSameLetterDecidable (a b : Nat) : Decidable (specSameLetter a b) :=
  inferInstanceAs (Decidable (a = b ∨ (0x41 ≤ a ∧ a ≤ 0x5A ∧ b = a + 0x20)
    ∨ (0x41 ≤ b ∧ b ≤ 0x5A ∧ a = b + 0x20)))

/-- Spec: the strings `s` and `t` differ only in the case of ASCII letters. -/
def specDifferOnlyInCase (s t : GoString) : Prop := List.Forall₂ specSameLetter s t

instance specDifferOnlyInCaseDecidable (s t : GoString) : Decidable (specDifferOnlyInCase s t) :=
  inferInstanceAs (Decidable (List.Forall₂ specSameLetter s t))

/-- Spec: the pairs of characters that the simple case folding of Unicode puts
together: a capital ASCII letter and its small letter, `k` and the Kelvin sign
U+212A, `s` and the long s U+017F, and beyond ASCII a character and the one the
table gives for it. -/
def specCaseStep (U : UnicodeTables) (a b : Nat) : Prop :=
  (0x41 ≤ a ∧ a ≤ 0x5A ∧ b = a + 0x20) ∨ (a = 0x6B ∧ b = 0x212A) ∨ (a = 0x73 ∧ b = 0x17F)
    ∨ (0x80 ≤ a ∧ a ≤ 0x10FFFF ∧ b = U.simpleFold a)

/-- Spec: two characters are the same with letter case ignored: they are
related by the equivalence that the pairs of `specCaseStep` generate. -/
def specCaseVariant (U : UnicodeTables) (a b : Nat) : Prop :=
  Relation.EqvGen (specCaseStep U) a b

/-- Spec: the texts `s` and `t` are equal with letter case ignored, whole string
against whole string: they are the UTF-8 texts of two sequences of characters
of the same length that agree, place by place, up to letter case. -/
def specEqualIgnoringCase (U : UnicodeTables) (s t : GoString) : Prop :=
  ∃ cs ct : List Nat, (∀ c ∈ cs, validRune c = true) ∧ (∀ c ∈ ct, validRune c = true)
    ∧ s = encodeAll cs ∧ t = encodeAll ct ∧ List.Forall₂ (specCaseVariant U) cs ct

/-- Spec: the lower-case form of an ASCII byte. -/
def specLowerASCII (b : Nat) : Nat := if 0x41 ≤ b ∧ b ≤ 0x5A then b + 0x20 else b

/-- Spec: the lower-case form of a character: by rule for ASCII, from the table
of Unicode beyond. -/
def specLowerRune (U : UnicodeTables) (r : Nat) : Nat :=
  if r < 0x80 then specLowerASCII r else U.toLower r

/-- Spec: the text `title` contains the text `keyword` as a substring with
letter case ignored: they are the UTF-8 texts of two sequences of characters,
and the characters of `keyword`, in lower case, stand one after another among
the characters of `title`, in lower case. -/
def specContainsIgnoringCase (U : UnicodeTables) (title keyword : GoString) : Prop :=
  ∃ ct ck : List Nat, (∀ c ∈ ct, validRune c = true) ∧ (∀ c ∈ ck, validRune c = true)
    ∧ title = encodeAll ct ∧ keyword = encodeAll ck
    ∧ ck.map (specLowerRune U) <:+: ct.map (specLowerRune U)

/-- Spec: the ASCII string `title` contains the ASCII string `keyword` as a
substring with letter case ignored. -/
def specContainsIgnoringCaseASCII (title keyword : GoString) : Prop :=
  keyword.map specLowerASCII <:+: title.map specLowerASCII

instance specContainsIgnoringCaseASCIIDecidable (title keyword : GoString) :
    Decidable (specContainsIgnoringCaseASCII title keyword) :=
  inferInstanceAs (Decidable (keyword.map specLowerASCII <:+: title.map specLowerASCII))

/-- Spec: the record that `add(title, category, priority)` creates. -/
def specNewTodo (a : GoString × GoString × GoString) : Todo :=
  { Title := a.1, Done := false, Category := a.2.1, Priority := a.2.2 }

/-- Unicode tables holding only the two orbits that leave ASCII: the Kelvin
sign goes back to `K` and the long s to `S`. -/
def sampleTables : UnicodeTables where
  toLower := fun r => if r = 0x212A then 0x6B else r
  simpleFold := fun r => if r = 0x212A then 0x4B else if r = 0x17F then 0x53 else r

/-! ## The number formats of package `fmt` -/

theorem parseDecimal_append (xs : GoString) (d : Nat) :
    parseDecimal (xs ++ [d]) = parseDecimal xs * 10 + (d - 0x30) := by
  simp [parseDecimal, List.foldl_append]

theorem fmtDigits_spec : ∀ (fuel n : Nat), n < fuel →
    fmtDigits fuel n ≠ [] ∧ (∀ d ∈ fmtDigits fuel n, isDigit d = true)
      ∧ parseDecimal (fmtDigits fuel n) = n := by
  intro fuel
  induction fuel with
  | zero => intro n h; omega
  | succ k ih =>
    intro n h
    unfold fmtDigits
    by_cases hn : n < 10
    · simp only [hn, if_true]
      refine ⟨by simp, ?_, ?_⟩
      · intro d hd
        simp only [List.mem_singleton] at hd
        subst hd
        simp only [isDigit, decide_eq_true_eq]
        omega
      · simp [parseDecimal]
    · obtain ⟨_, h2, h3⟩ := ih (n / 10) (by omega)
      simp only [hn, if_false]
      refine ⟨by simp, ?_, ?_⟩
      · intro d hd
        rcases List.mem_append.mp hd with hd | hd
        · exact h2 d hd
        · simp only [List.mem_singleton] at hd
          subst hd
          simp only [isDigit, decide_eq_true_eq]
          omega
      · rw [parseDecimal_append, h3]
        omega

theorem sscanInt_digits (l : GoString) (hne : l ≠ []) (hd : ∀ d ∈ l, isDigit d = true) :
    sscanInt l = (if ((parseDecimal l : Nat) : Int) < 2 ^ 63 then some ((parseDecimal l : Nat) : Int) else none)
    ∧ sscanInt (0x2D :: l)
      = (if -(2 : Int) ^ 63 ≤ -((parseDecimal l : Nat) : Int) then some (-((parseDecimal l : Nat) : Int)) else none) := by
  obtain ⟨d, t, rfl⟩ := List.exists_cons_of_ne_nil hne
  have hd0 : isDigit d = true := hd d (by simp)
  have hd1 : 0x30 ≤ d ∧ d ≤ 0x39 := by simpa [isDigit] using hd0
  have htw : List.takeWhile isDigit (d :: t) = d :: t := List.takeWhile_eq_self_iff.mpr hd
  constructor
  · have h1 : ¬ (d = 0x2B) := by omega
    have h2 : ¬ (d = 0x2D) := by omega
    simp only [sscanInt, List.head?_cons, Option.some.injEq, h1, h2, or_self, if_false, htw,
      decide_False, Bool.false_eq_true]
    simp only [reduceCtorEq, if_false]
    norm_num
    split_ifs <;> first | rfl | omega
  · simp only [sscanInt, List.head?_cons, or_true, if_true, List.tail_cons, htw, decide_True]
    simp only [reduceCtorEq, if_false]
    norm_num
    split_ifs <;> first | rfl | omega

theorem sscanInt_fmtInt (p : Int) :
    sscanInt (fmtInt p) = if -(2 : Int) ^ 63 ≤ p ∧ p < 2 ^ 63 then some p else none := by
  by_cases hp : p < 0
  · obtain ⟨h1, h2, h3⟩ := fmtDigits_spec (p.natAbs + 1) p.natAbs (by omega)
    have hv : -((p.natAbs : Nat) : Int) = p := by omega
    have hlt : p < 2 ^ 63 := by norm_num; omega
    simp only [fmtInt, hp, if_true]
    rw [(sscanInt_digits _ h1 h2).2, h3, hv]
    norm_num at hlt ⊢
    split_ifs <;> first | rfl | omega
  · obtain ⟨h1, h2, h3⟩ := fmtDigits_spec (p.toNat + 1) p.toNat (by omega)
    have hv : ((p.toNat : Nat) : Int) = p := by omega
    have hge : -(2 : Int) ^ 63 ≤ p := by norm_num; omega
    simp only [fmtInt, hp, if_false]
    rw [(sscanInt_digits _ h1 h2).1, h3, hv]
    norm_num at hge ⊢
    split_ifs <;> first | rfl | omega

theorem getTodoID_fmtInt (p : Int) :
    getTodoID (fmtInt p)
      = if -(2 : Int) ^ 63 ≤ p ∧ p < 2 ^ 63 then (if p = -(2 : Int) ^ 63 then 2 ^ 63 - 1 else p - 1)
        else -1 := by
  simp only [getTodoID, sscanInt_fmtInt]
  by_cases h : -(2 : Int) ^ 63 ≤ p ∧ p < 2 ^ 63
  · simp only [h, and_self, if_true]
    by_cases h2 : p = -(2 : Int) ^ 63
    · simp only [h2, if_true, wrapInt]
      norm_num
    · simp only [h2, if_false, wrapInt]
      norm_num at h h2 ⊢
      omega
  · simp only [h, if_false, wrapInt]
    norm_num

/-! ## Marking and deleting by position -/

theorem getTodoID_in_range (n p : Nat) (hlen : n < 2 ^ 63) (h1 : 1 ≤ p) (h2 : p ≤ n) :
    getTodoID (fmtInt (p : Int)) = ((p - 1 : Nat) : Int) := by
  rw [getTodoID_fmtInt]
  norm_num at hlen ⊢
  split_ifs <;> first | omega | contradiction

theorem getTodoID_out_of_range (n : Nat) (p : Int) (hlen : n < 2 ^ 63)
    (h : p ≤ 0 ∨ (n : Int) < p) :
    getTodoID (fmtInt p) < 0 ∨ getTodoID (fmtInt p) ≥ (n : Int) := by
  rw [getTodoID_fmtInt]
  norm_num at hlen ⊢
  split_ifs <;> omega

theorem markTodoDone_store (todos : List Todo) (p : Nat)
    (hlen : todos.length < 2 ^ 63) (h1 : 1 ≤ p) (h2 : p ≤ todos.length) :
    (markTodoDone todos (fmtInt (p : Int))).1
      = todos.modify (fun todo => { todo with Done := true }) (p - 1) := by
  have hid := getTodoID_in_range todos.length p hlen h1 h2
  have hc : ¬ (((p - 1 : Nat) : Int) < 0 ∨ ((p - 1 : Nat) : Int) ≥ (todos.length : Int)) := by omega
  simp only [markTodoDone, hid, hc, if_false, Int.toNat_ofNat]

theorem deleteTodo_store (todos : List Todo) (p : Nat)
    (hlen : todos.length < 2 ^ 63) (h1 : 1 ≤ p) (h2 : p ≤ todos.length) :
    (deleteTodo todos (fmtInt (p : Int))).1 = todos.take (p - 1) ++ todos.drop (p - 1 + 1) := by
  have hid := getTodoID_in_range todos.length p hlen h1 h2
  have hc : ¬ (((p - 1 : Nat) : Int) < 0 ∨ ((p - 1 : Nat) : Int) ≥ (todos.length : Int)) := by omega
  simp only [deleteTodo, hid, hc, if_false, Int.toNat_ofNat]

/-- C1: for a position `p` with `1 ≤ p ≤ len(todos)`, entered in decimal,
`markTodoDone` keeps the length of the store, the record at position `p` gets
`Done = true` with title, category and priority as before, and the record at
every other position is the one that was there. -/
theorem markTodoDone_in_range (todos : List Todo) (p : Nat)
    (hlen : todos.length < 2 ^ 63) (h1 : 1 ≤ p) (h2 : p ≤ todos.length) :
    (markTodoDone todos (fmtInt (p : Int))).1.length = todos.length
    ∧ (∃ t, todos[p - 1]? = some t
        ∧ (markTodoDone todos (fmtInt (p : Int))).1[p - 1]?
            = some { Title := t.Title, Done := true, Category := t.Category, Priority := t.Priority })
    ∧ ∀ q, 1 ≤ q → q ≠ p → (markTodoDone todos (fmtInt (p : Int))).1[q - 1]? = todos[q - 1]? := by
  rw [markTodoDone_store todos p hlen h1 h2]
  refine ⟨by simp, ?_, ?_⟩
  · have hlt : p - 1 < todos.length := by omega
    refine ⟨todos[p - 1], by simp [hlt], ?_⟩
    simp [List.getElem?_modify, hlt]
  · intro q hq hne
    have : ¬ (p - 1 = q - 1) := by omega
    rw [List.getElem?_modify]
    simp only [this, if_false]
    cases todos[q - 1]? <;> rfl

/-- Witness of C1: position 2 of a store of three records. -/
theorem markTodoDone_in_range_witness :
    (markTodoDone [⟨str "a", false, str "x", str "Low"⟩, ⟨str "b", false, str "y", str "High"⟩,
        ⟨str "c", true, str "z", str "low"⟩] (fmtInt ((2 : Nat) : Int))).1.length = 3
    ∧ (∃ t, [(⟨str "a", false, str "x", str "Low"⟩ : Todo), ⟨str "b", false, str "y", str "High"⟩,
              ⟨str "c", true, str "z", str "low"⟩][2 - 1]? = some t
        ∧ (markTodoDone [⟨str "a", false, str "x", str "Low"⟩, ⟨str "b", false, str "y", str "High"⟩,
              ⟨str "c", true, str "z", str "low"⟩] (fmtInt ((2 : Nat) : Int))).1[2 - 1]?
            = some { Title := t.Title, Done := true, Category := t.Category, Priority := t.Priority })
    ∧ ∀ q, 1 ≤ q → q ≠ 2 →
        (markTodoDone [⟨str "a", false, str "x", str "Low"⟩, ⟨str "b", false, str "y", str "High"⟩,
              ⟨str "c", true, str "z", str "low"⟩] (fmtInt ((2 : Nat) : Int))).1[q - 1]?
          = [(⟨str "a", false, str "x", str "Low"⟩ : Todo), ⟨str "b", false, str "y", str "High"⟩,
              ⟨str "c", true, str "z", str "low"⟩][q - 1]? :=
  markTodoDone_in_range [⟨str "a", false, str "x", str "Low"⟩, ⟨str "b", false, str "y", str "High"⟩,
    ⟨str "c", true, str "z", str "low"⟩] 2 (by decide) (by decide) (by decide)

/-- C2: for a position `p` with `1 ≤ p ≤ len(todos)`, entered in decimal,
`deleteTodo` leaves the old sequence without its `p`-th element: one record
fewer, the records before position `p` where they were, and every record
formerly at a position `q > p` now at position `q - 1`. -/
theorem deleteTodo_in_range (todos : List Todo) (p : Nat)
    (hlen : todos.length < 2 ^ 63) (h1 : 1 ≤ p) (h2 : p ≤ todos.length) :
    (deleteTodo todos (fmtInt (p : Int))).1 = todos.eraseIdx (p - 1)
    ∧ (deleteTodo todos (fmtInt (p : Int))).1.length = todos.length - 1
    ∧ (∀ q, 1 ≤ q → q < p → (deleteTodo todos (fmtInt (p : Int))).1[q - 1]? = todos[q - 1]?)
    ∧ (∀ q, p < q → (deleteTodo todos (fmtInt (p : Int))).1[q - 1 - 1]? = todos[q - 1]?) := by
  rw [deleteTodo_store todos p hlen h1 h2, ← List.eraseIdx_eq_take_drop_succ]
  refine ⟨rfl, ?_, ?_, ?_⟩
  · rw [List.length_eraseIdx]
    have : p - 1 < todos.length := by omega
    simp [this]
  · intro q hq hqp
    rw [List.getElem?_eraseIdx]
    have : q - 1 < p - 1 := by omega
    simp [this]
  · intro q hpq
    rw [List.getElem?_eraseIdx]
    have : ¬ (q - 1 - 1 < p - 1) := by omega
    have h3 : q - 1 - 1 + 1 = q - 1 := by omega
    simp [this, h3]

/-- Witness of C2: position 2 of a store of three records. -/
theorem deleteTodo_in_range_witness :
    (deleteTodo [⟨str "a", false, str "x", str "Low"⟩, ⟨str "b", false, str "y", str "High"⟩,
        ⟨str "c", true, str "z", str "low"⟩] (fmtInt ((2 : Nat) : Int))).1
      = [⟨str "a", false, str "x", str "Low"⟩, ⟨str "c", true, str "z", str "low"⟩] :=
  (deleteTodo_in_range [⟨str "a", false, str "x", str "Low"⟩, ⟨str "b", false, str "y", str "High"⟩,
    ⟨str "c", true, str "z", str "low"⟩] 2 (by decide) (by decide) (by decide)).1

/-- C3: for an integer `p` outside `[1, len(todos)]`, entered in decimal,
`markTodoDone` and `deleteTodo` both return the store as it was. -/
theorem out_of_range_unchanged (todos : List Todo) (p : Int)
    (hlen : todos.length < 2 ^ 63) (h : p ≤ 0 ∨ (todos.length : Int) < p) :
    (markTodoDone todos (fmtInt p)).1 = todos ∧ (deleteTodo todos (fmtInt p)).1 = todos := by
  have hid := getTodoID_out_of_range todos.length p hlen h
  simp only [markTodoDone, deleteTodo, hid, if_true, and_self]

/-- Witness of C3: position 4 of a store of three records. -/
theorem out_of_range_unchanged_witness :
    (markTodoDone [⟨str "a", false, str "x", str "Low"⟩, ⟨str "b", false, str "y", str "High"⟩,
        ⟨str "c", true, str "z", str "low"⟩] (fmtInt 4)).1
      = [⟨str "a", false, str "x", str "Low"⟩, ⟨str "b", false, str "y", str "High"⟩,
        ⟨str "c", true, str "z", str "low"⟩]
    ∧ (deleteTodo [⟨str "a", false, str "x", str "Low"⟩, ⟨str "b", false, str "y", str "High"⟩,
        ⟨str "c", true, str "z", str "low"⟩] (fmtInt 4)).1
      = [⟨str "a", false, str "x", str "Low"⟩, ⟨str "b", false, str "y", str "High"⟩,
        ⟨str "c", true, str "z", str "low"⟩] :=
  out_of_range_unchanged [⟨str "a", false, str "x", str "Low"⟩, ⟨str "b", false, str "y", str "High"⟩,
    ⟨str "c", true, str "z", str "low"⟩] 4 (by decide) (by decide)

/-! ## Listing -/

theorem foldl_append_if {α : Type} (P : α → Prop) [DecidablePred P] (l init : List α) :
    l.foldl (fun acc x => if P x then acc ++ [x] else acc) init
      = init ++ l.filter (fun x => decide (P x)) := by
  induction l generalizing init with
  | nil => simp
  | cons a l ih =>
    simp only [List.foldl_cons, List.filter_cons]
    by_cases h : P a
    · simp [h, ih]
    · simp [h, ih]

theorem listTodosLine_eq (i : Nat) (todo : Todo) :
    listTodosLine i todo = println (specEntry (i + 1) todo) := by
  have h : str ")\n" = str ")" ++ [0x0A] := by decide
  simp only [listTodosLine, specEntry, println, h, List.append_assoc, Nat.cast_add, Nat.cast_one]

theorem listTodosLoop_eq (todos : List Todo) (i : Nat) :
    listTodosLoop i todos
      = (todos.enumFrom i).flatMap (fun e => println (specEntry (e.1 + 1) e.2)) := by
  induction todos generalizing i with
  | nil => simp [listTodosLoop]
  | cons t ts ih => simp [listTodosLoop, List.enumFrom_cons, ih, listTodosLine_eq]

/-- C9: `listTodos` prints only the no-results message for an empty list; for
any other list it prints the header and then, for each record in order, one
line `i. [S] title (Category: c, Priority: p)` where `i` counts from 1 within
the list passed in and `S` is `Done` or `Not Done`. The single record
Buy milk / Home / Low, not done, is printed as entry 1. -/
theorem listTodos_spec :
    listTodos [] = println (str "📭 No to-dos found!")
    ∧ (∀ t ts, listTodos (t :: ts)
        = println (str "\n📌 Your To-Do List:")
          ++ ((t :: ts).enum.flatMap (fun e => println (specEntry (e.1 + 1) e.2))))
    ∧ (∀ (i : Nat) (t : Todo), specEntry i t
        = fmtInt (i : Int) ++ str ". [" ++ (if t.Done = true then str "Done" else str "Not Done")
          ++ str "] " ++ t.Title ++ str " (Category: " ++ t.Category
          ++ str ", Priority: " ++ t.Priority ++ str ")")
    ∧ listTodos [⟨str "Buy milk", false, str "Home", str "Low"⟩]
        = println (str "\n📌 Your To-Do List:")
          ++ println (str "1. [Not Done] Buy milk (Category: Home, Priority: Low)") := by
  refine ⟨rfl, ?_, ?_, by decide⟩
  · intro t ts
    simp only [listTodos, List.length_cons, Nat.add_one_ne_zero, if_false, listTodosLoop_eq,
      List.enum]
  · intro i t
    rfl

/-! ## Filter by status -/

/-- C6: with status `pending` the records with `Done = false` are listed, with
status `completed` those with `Done = true`, in store order; with any other
status (such as `Pending`, `done` or the empty string) the listing is that of
the empty list, the no-results message. -/
theorem listPendingOrCompleted_spec (todos : List Todo) :
    listPendingOrCompleted todos (str "pending")
      = getInputPrompt (str "Enter 'pending' to list only pending to-dos or 'completed' for completed ones:")
        ++ listTodos (todos.filter (fun t => !t.Done))
    ∧ listPendingOrCompleted todos (str "completed")
      = getInputPrompt (str "Enter 'pending' to list only pending to-dos or 'completed' for completed ones:")
        ++ listTodos (todos.filter (fun t => t.Done))
    ∧ (∀ status, status ≠ str "pending" → status ≠ str "completed" →
        listPendingOrCompleted todos status
          = getInputPrompt (str "Enter 'pending' to list only pending to-dos or 'completed' for completed ones:")
            ++ println (str "📭 No to-dos found!"))
    ∧ str "Pending" ≠ str "pending" ∧ str "Pending" ≠ str "completed"
    ∧ str "done" ≠ str "pending" ∧ str "done" ≠ str "completed"
    ∧ str "" ≠ str "pending" ∧ str "" ≠ str "completed" := by
  refine ⟨?_, ?_, ?_, by decide, by decide, by decide, by decide, by decide, by decide⟩
  · have hne : ¬ (str "pending" = str "completed") := by decide
    simp only [listPendingOrCompleted, foldl_append_if, List.nil_append, true_and, hne, false_and,
      or_false]
    congr 2
    apply List.filter_congr
    intro t _
    cases t.Done <;> simp
  · have hne : ¬ (str "completed" = str "pending") := by decide
    simp only [listPendingOrCompleted, foldl_append_if, List.nil_append, true_and, hne, false_and,
      false_or]
    congr 2
    apply List.filter_congr
    intro t _
    cases t.Done <;> simp
  · intro status h1 h2
    simp only [listPendingOrCompleted, foldl_append_if, List.nil_append, h1, h2, false_and,
      or_self, decide_False, List.filter_false]
    rfl

/-- Witness of C6: the status `Pending` on a store of two records. -/
theorem listPendingOrCompleted_spec_witness :
    listPendingOrCompleted [⟨str "a", false, str "x", str "Low"⟩, ⟨str "b", true, str "y", str "High"⟩]
        (str "Pending")
      = getInputPrompt (str "Enter 'pending' to list only pending to-dos or 'completed' for completed ones:")
        ++ println (str "📭 No to-dos found!") :=
  (listPendingOrCompleted_spec [⟨str "a", false, str "x", str "Low"⟩,
    ⟨str "b", true, str "y", str "High"⟩]).2.2.1 (str "Pending") (by decide) (by decide)

/-! ## Priority entry and adding -/

theorem toLower_priority_names (U : UnicodeTables) :
    ToLower U (str "High") = str "high" ∧ ToLower U (str "Medium") = str "medium"
      ∧ ToLower U (str "Low") = str "low" :=
  ⟨rfl, rfl, rfl⟩

theorem specPriority_iff (U : UnicodeTables) (p : GoString) :
    specPriority U p = true
      ↔ (ToLower U p = str "high" ∨ ToLower U p = str "medium" ∨ ToLower U p = str "low") := by
  obtain ⟨h1, h2, h3⟩ := toLower_priority_names U
  simp only [specPriority, h1, h2, h3, decide_eq_true_eq]

/-- The bytes `getPriorityInput` prints while it rejects `n` entries and accepts
the next one. -/
theorem getPriorityInput_accept (U : UnicodeTables) (rejected : List GoString)
    (entry : GoString) (rest : List GoString)
    (hrej : ∀ r ∈ rejected, specPriority U r = false) (hacc : specPriority U entry = true) :
    getPriorityInput U (rejected ++ entry :: rest)
      = some (entry, rest,
          rejected.flatMap (fun _ => getInputPrompt (str "Enter the priority (High, Medium, Low):")
            ++ println (str "❌ Invalid priority. Please enter 'High', 'Medium', or 'Low'."))
          ++ getInputPrompt (str "Enter the priority (High, Medium, Low):")) := by
  induction rejected with
  | nil =>
    have h := (specPriority_iff U entry).mp hacc
    simp only [List.nil_append, getPriorityInput, h, if_true, List.flatMap_nil]
  | cons r rs ih =>
    have hr : ¬ (ToLower U r = str "high" ∨ ToLower U r = str "medium" ∨ ToLower U r = str "low") := by
      intro h
      have := (specPriority_iff U r).mpr h
      rw [hrej r (by simp)] at this
      exact Bool.false_ne_true this
    have ih1 := ih (fun x hx => hrej x (by simp [hx]))
    simp only [List.cons_append, getPriorityInput, hr, if_false, List.append_eq, ih1,
      List.flatMap_cons, List.append_assoc]

theorem getPriorityInput_none (U : UnicodeTables) (lines : List GoString)
    (hrej : ∀ r ∈ lines, specPriority U r = false) : getPriorityInput U lines = none := by
  induction lines with
  | nil => rfl
  | cons r rs ih =>
    have hr : ¬ (ToLower U r = str "high" ∨ ToLower U r = str "medium" ∨ ToLower U r = str "low") := by
      intro h
      have := (specPriority_iff U r).mpr h
      rw [hrej r (by simp)] at this
      exact Bool.false_ne_true this
    simp only [getPriorityInput, hr, if_false, ih (fun x hx => hrej x (by simp [hx]))]

theorem addTodo_accept (U : UnicodeTables) (todos : List Todo) (title category : GoString)
    (rejected : List GoString) (priority : GoString) (rest : List GoString)
    (hrej : ∀ r ∈ rejected, specPriority U r = false) (hacc : specPriority U priority = true) :
    addTodo U todos title category (rejected ++ priority :: rest)
      = some (todos ++ [specNewTodo (title, category, priority)], rest,
          getInputPrompt (str "Enter the title of the to-do:")
            ++ getInputPrompt (str "Enter the category (e.g., Work, Personal):")
            ++ (rejected.flatMap (fun _ => getInputPrompt (str "Enter the priority (High, Medium, Low):")
                  ++ println (str "❌ Invalid priority. Please enter 'High', 'Medium', or 'Low'."))
                ++ getInputPrompt (str "Enter the priority (High, Medium, Low):"))
            ++ println (str "✅ To-Do added successfully!")) := by
  simp only [addTodo, getPriorityInput_accept U rejected priority rest hrej hacc, specNewTodo]

theorem addTodo_sequence (U : UnicodeTables) (adds : List (GoString × GoString × GoString))
    (hacc : ∀ a ∈ adds, specPriority U a.2.2 = true) (todos : List Todo) :
    adds.foldlM (fun store a => (addTodo U store a.1 a.2.1 [a.2.2]).map (fun r => r.1)) todos
      = some (todos ++ adds.map specNewTodo) := by
  induction adds generalizing todos with
  | nil => simp
  | cons a as ih =>
    have h := addTodo_accept U todos a.1 a.2.1 [] a.2.2 [] (by simp) (hacc a (by simp))
    simp only [List.nil_append] at h
    simp only [List.foldlM_cons, h, Option.map_some', Option.bind_eq_bind, Option.some_bind,
      ih (fun x hx => hacc x (by simp [hx])), List.map_cons, List.append_assoc,
      List.singleton_append]

/-- C4: for every store, title, category and accepted priority (entered after
any number of rejected entries), `addTodo` returns the old store with one
record appended at the end, holding that title, category and priority and
`Done = false`; hence adds run one after another from the empty store leave
the added records in insertion order, each with `Done = false`, and that is
the list `listTodos` prints for menu option 1. -/
theorem addTodo_spec (U : UnicodeTables) :
    (∀ (todos : List Todo) (title category : GoString) (rejected : List GoString)
        (priority : GoString) (rest : List GoString),
        (∀ r ∈ rejected, specPriority U r = false) → specPriority U priority = true →
        ∃ out, addTodo U todos title category (rejected ++ priority :: rest)
          = some (todos ++ [{ Title := title, Done := false, Category := category,
                              Priority := priority }], rest, out))
    ∧ (∀ adds : List (GoString × GoString × GoString),
        (∀ a ∈ adds, specPriority U a.2.2 = true) →
        ∃ store,
          adds.foldlM (fun store a => (addTodo U store a.1 a.2.1 [a.2.2]).map (fun r => r.1)) []
            = some store
          ∧ store = adds.map (fun a => { Title := a.1, Done := false, Category := a.2.1,
                                         Priority := a.2.2 })
          ∧ listTodos store
            = listTodos (adds.map (fun a => { Title := a.1, Done := false, Category := a.2.1,
                                              Priority := a.2.2 }))) := by
  constructor
  · intro todos title category rejected priority rest hrej hacc
    exact ⟨_, addTodo_accept U todos title category rejected priority rest hrej hacc⟩
  · intro adds hacc
    refine ⟨adds.map specNewTodo, ?_, rfl, rfl⟩
    simpa using addTodo_sequence U adds hacc []

/-- Witness of C4: two adds from the empty store, the first after a rejected
priority entry. -/
theorem addTodo_spec_witness :
    (∃ out, addTodo sampleTables [] (str "Buy milk") (str "Home") ([str "banana"] ++ str "Low" :: [])
        = some ([] ++ [{ Title := str "Buy milk", Done := false, Category := str "Home",
                         Priority := str "Low" }], [], out))
    ∧ (∃ store,
        [(str "Buy milk", str "Home", str "Low"), (str "Call", str "Work", str "HIGH")].foldlM
            (fun store a => (addTodo sampleTables store a.1 a.2.1 [a.2.2]).map (fun r => r.1)) []
          = some store
        ∧ store = [⟨str "Buy milk", false, str "Home", str "Low"⟩,
                   ⟨str "Call", false, str "Work", str "HIGH"⟩]) := by
  constructor
  · exact (addTodo_spec sampleTables).1 [] (str "Buy milk") (str "Home") [str "banana"] (str "Low") []
      (by decide) (by decide)
  · obtain ⟨store, h1, h2, _⟩ := (addTodo_spec sampleTables).2
      [(str "Buy milk", str "Home", str "Low"), (str "Call", str "Work", str "HIGH")] (by decide)
    exact ⟨store, h1, h2⟩

/-- C10: `getPriorityInput` rejects, with the error message and a new prompt,
every entry that is not High, Medium or Low with letter case ignored, and
returns the first entry that is, exactly as entered; while no such entry has
come it keeps asking. `banana` is rejected, and `high` is accepted, returned
as `high` and stored as `high` by `addTodo`. -/
theorem getPriorityInput_spec (U : UnicodeTables) :
    (∀ (rejected : List GoString) (entry : GoString) (rest : List GoString),
        (∀ r ∈ rejected, specPriority U r = false) → specPriority U entry = true →
        getPriorityInput U (rejected ++ entry :: rest)
          = some (entry, rest,
              rejected.flatMap (fun _ => getInputPrompt (str "Enter the priority (High, Medium, Low):")
                ++ println (str "❌ Invalid priority. Please enter 'High', 'Medium', or 'Low'."))
              ++ getInputPrompt (str "Enter the priority (High, Medium, Low):")))
    ∧ (∀ lines : List GoString, (∀ r ∈ lines, specPriority U r = false) →
        getPriorityInput U lines = none)
    ∧ specPriority U (str "banana") = false
    ∧ specPriority U (str "high") = true
    ∧ (∀ rest, ∃ out, getPriorityInput U (str "banana" :: str "high" :: rest)
        = some (str "high", rest, out))
    ∧ (∀ todos title category rest, ∃ out,
        addTodo U todos title category (str "banana" :: str "high" :: rest)
          = some (todos ++ [{ Title := title, Done := false, Category := category,
                              Priority := str "high" }], rest, out)) := by
  have hb : specPriority U (str "banana") = false := rfl
  have hh : specPriority U (str "high") = true := rfl
  refine ⟨getPriorityInput_accept U, getPriorityInput_none U, hb, hh, ?_, ?_⟩
  · intro rest
    exact ⟨_, getPriorityInput_accept U [str "banana"] (str "high") rest (by simpa using hb) hh⟩
  · intro todos title category rest
    exact ⟨_, addTodo_accept U todos title category [str "banana"] (str "high") rest
      (by simpa using hb) hh⟩

/-- Witness of C10: two rejected entries, then `MEDIUM`. -/
theorem getPriorityInput_spec_witness :
    getPriorityInput sampleTables ([str "banana", str ""] ++ str "MEDIUM" :: [str "next"])
      = some (str "MEDIUM", [str "next"],
          [str "banana", str ""].flatMap
              (fun _ => getInputPrompt (str "Enter the priority (High, Medium, Low):")
                ++ println (str "❌ Invalid priority. Please enter 'High', 'Medium', or 'Low'."))
            ++ getInputPrompt (str "Enter the priority (High, Medium, Low):")) :=
  (getPriorityInput_spec sampleTables).1 [str "banana", str ""] (str "MEDIUM") [str "next"]
    (by decide) (by decide)

/-! ## UTF-8 -/

theorem decodeRune_ascii (b : Nat) (t : GoString) (hb : b < 0x80) : decodeRune (b :: t) = (b, 1) := by
  simp only [decodeRune, first, hb, if_true, ge_iff_le, le_refl]

theorem first_invalid (b : Nat) (h1 : 0x80 ≤ b) (h2 : b < 0xC2 ∨ 0xF4 < b) : first b = 0xF1 := by
  unfold first
  split_ifs <;> first | rfl | omega

theorem first_two (b : Nat) (h1 : 0xC2 ≤ b) (h2 : b < 0xE0) : first b = 0x02 := by
  unfold first
  split_ifs <;> first | rfl | omega

theorem first_three (b : Nat) (h1 : 0xE0 ≤ b) (h2 : b < 0xF0) :
    first b = (if b = 0xE0 then 0x13 else if b = 0xED then 0x23 else 0x03) := by
  unfold first
  split_ifs <;> first | rfl | omega

theorem first_four (b : Nat) (h1 : 0xF0 ≤ b) (h2 : b ≤ 0xF4) :
    first b = (if b = 0xF0 then 0x34 else if b = 0xF4 then 0x44 else 0x04) := by
  unfold first
  split_ifs <;> first | rfl | omega

theorem decodeRune_two (b : Nat) (t : GoString) (h1 : 0xC2 ≤ b) (h2 : b < 0xE0)
    (hv : ¬ ((decodeRune (b :: t)).1 = RuneError ∧ (decodeRune (b :: t)).2 = 1)) :
    ∃ pre post, b :: t = pre ++ post ∧ pre.length = (decodeRune (b :: t)).2
      ∧ encodeRune (decodeRune (b :: t)).1 = pre
      ∧ ∀ Y, decodeRune (pre ++ Y) = decodeRune (b :: t) := by
  have hf := first_two b h1 h2
  cases t with
  | nil => simp [decodeRune, hf] at hv
  | cons s1 t1 =>
    by_cases hr : s1 < 0x80 ∨ 0xBF < s1
    · simp [decodeRune, hf, acceptRanges, hr] at hv
    · have hd : ∀ Y, decodeRune (b :: s1 :: Y) = (b % 32 * 64 + s1 % 64, 2) := by
        intro Y
        simp [decodeRune, hf, acceptRanges, hr]
      refine ⟨[b, s1], t1, rfl, by rw [hd]; rfl, ?_, ?_⟩
      · rw [hd]
        simp only [encodeRune]
        split_ifs <;> simp <;> omega
      · intro Y
        simp only [List.cons_append, List.nil_append, hd]

theorem decodeRune_three (b : Nat) (t : GoString) (h1 : 0xE0 ≤ b) (h2 : b < 0xF0)
    (hv : ¬ ((decodeRune (b :: t)).1 = RuneError ∧ (decodeRune (b :: t)).2 = 1)) :
    ∃ pre post, b :: t = pre ++ post ∧ pre.length = (decodeRune (b :: t)).2
      ∧ encodeRune (decodeRune (b :: t)).1 = pre
      ∧ ∀ Y, decodeRune (pre ++ Y) = decodeRune (b :: t) := by
  have hf := first_three b h1 h2
  cases t with
  | nil => 
    exfalso; apply hv
    split_ifs at hf <;> simp [decodeRune, hf]
  | cons s1 t1 =>
    cases t1 with
    | nil =>
      exfalso; apply hv
      split_ifs at hf <;> simp [decodeRune, hf]
    | cons s2 t2 =>
      by_cases hr : s1 < (if b = 0xE0 then 0xA0 else 0x80) ∨ (if b = 0xED then 0x9F else 0xBF) < s1
      · exfalso; apply hv
        split_ifs at hf hr <;> (simp [decodeRune, hf, acceptRanges, hr]; try omega)
      · by_cases hr2 : s2 < 0x80 ∨ 0xBF < s2
        · exfalso; apply hv
          split_ifs at hf hr <;> simp [decodeRune, hf, acceptRanges, hr, hr2]
        · have hd : ∀ Y, decodeRune (b :: s1 :: s2 :: Y)
              = (b % 16 * 4096 + s1 % 64 * 64 + s2 % 64, 3) := by
            intro Y
            split_ifs at hf hr <;> (simp [decodeRune, hf, acceptRanges, hr, hr2]; try omega)
          refine ⟨[b, s1, s2], t2, rfl, by rw [hd]; rfl, ?_, ?_⟩
          · rw [hd]
            simp only [encodeRune]
            split_ifs at hr ⊢ <;> simp <;> omega
          · intro Y
            simp only [List.cons_append, List.nil_append, hd]

theorem decodeRune_four (b : Nat) (t : GoString) (h1 : 0xF0 ≤ b) (h2 : b ≤ 0xF4)
    (hv : ¬ ((decodeRune (b :: t)).1 = RuneError ∧ (decodeRune (b :: t)).2 = 1)) :
    ∃ pre post, b :: t = pre ++ post ∧ pre.length = (decodeRune (b :: t)).2
      ∧ encodeRune (decodeRune (b :: t)).1 = pre
      ∧ ∀ Y, decodeRune (pre ++ Y) = decodeRune (b :: t) := by
  have hf := first_four b h1 h2
  cases t with
  | nil =>
    exfalso; apply hv
    split_ifs at hf <;> simp [decodeRune, hf]
  | cons s1 t1 =>
    cases t1 with
    | nil =>
      exfalso; apply hv
      split_ifs at hf <;> simp [decodeRune, hf]
    | cons s2 t2 =>
      cases t2 with
      | nil =>
        exfalso; apply hv
        split_ifs at hf <;> simp [decodeRune, hf]
      | cons s3 t3 =>
        by_cases hr : s1 < (if b = 0xF0 then 0x90 else 0x80) ∨ (if b = 0xF4 then 0x8F else 0xBF) < s1
        · exfalso; apply hv
          split_ifs at hf hr <;> (simp [decodeRune, hf, acceptRanges, hr]; try omega)
        · by_cases hr2 : s2 < 0x80 ∨ 0xBF < s2
          · exfalso; apply hv
            split_ifs at hf hr <;> simp [decodeRune, hf, acceptRanges, hr, hr2]
          · by_cases hr3 : s3 < 0x80 ∨ 0xBF < s3
            · exfalso; apply hv
              split_ifs at hf hr <;> simp [decodeRune, hf, acceptRanges, hr, hr2, hr3]
            · have hd : ∀ Y, decodeRune (b :: s1 :: s2 :: s3 :: Y)
                  = (b % 8 * 262144 + s1 % 64 * 4096 + s2 % 64 * 64 + s3 % 64, 4) := by
                intro Y
                split_ifs at hf hr <;>
                  (simp [decodeRune, hf, acceptRanges, hr, hr2, hr3]; try omega)
              refine ⟨[b, s1, s2, s3], t3, rfl, by rw [hd]; rfl, ?_, ?_⟩
              · rw [hd]
                simp only [encodeRune]
                split_ifs at hr ⊢ <;> simp <;> omega
              · intro Y
                simp only [List.cons_append, List.nil_append, hd]

/-- A valid encoding that starts with a byte from `0x80` on: the bytes it
spans are what `encodeRune` writes for the rune, and nothing after them is
looked at. -/
theorem decodeRune_valid (b : Nat) (t : GoString) (hb : 0x80 ≤ b)
    (hv : ¬ ((decodeRune (b :: t)).1 = RuneError ∧ (decodeRune (b :: t)).2 = 1)) :
    ∃ pre post, b :: t = pre ++ post ∧ pre.length = (decodeRune (b :: t)).2
      ∧ encodeRune (decodeRune (b :: t)).1 = pre
      ∧ ∀ Y, decodeRune (pre ++ Y) = decodeRune (b :: t) := by
  by_cases h1 : b < 0xC2 ∨ 0xF4 < b
  · exfalso; apply hv
    simp [decodeRune, first_invalid b hb h1]
  · by_cases h2 : b < 0xE0
    · exact decodeRune_two b t (by omega) h2 hv
    · by_cases h3 : b < 0xF0
      · exact decodeRune_three b t (by omega) h3 hv
      · exact decodeRune_four b t (by omega) (by omega) hv

theorem decodeRune_size_pos (b : Nat) (t : GoString) : 1 ≤ (decodeRune (b :: t)).2 := by
  by_cases hb : b < 0x80
  · rw [decodeRune_ascii b t hb]
  · by_cases hv : (decodeRune (b :: t)).1 = RuneError ∧ (decodeRune (b :: t)).2 = 1
    · omega
    · obtain ⟨pre, post, h1, h2, h3, _⟩ := decodeRune_valid b t (by omega) hv
      rw [← h2]
      cases pre with
      | nil => simp [encodeRune] at h3; split_ifs at h3
      | cons x xs => simp

/-! ## UTF-8 text: a valid string is the encoding of its characters -/

theorem decodeRune_bytes2 (b0 b1 : Nat) (Y : GoString) (h0 : 0xC2 ≤ b0 ∧ b0 < 0xE0)
    (h1 : 0x80 ≤ b1 ∧ b1 ≤ 0xBF) :
    decodeRune (b0 :: b1 :: Y) = (b0 % 32 * 64 + b1 % 64, 2) := by
  have hf := first_two b0 h0.1 h0.2
  have hr : ¬ (b1 < 0x80 ∨ 0xBF < b1) := by omega
  simp [decodeRune, hf, acceptRanges, hr]

theorem decodeRune_bytes3 (b0 b1 b2 : Nat) (Y : GoString) (h0 : 0xE0 ≤ b0 ∧ b0 < 0xF0)
    (h1 : 0x80 ≤ b1 ∧ b1 ≤ 0xBF ∧ (b0 = 0xE0 → 0xA0 ≤ b1) ∧ (b0 = 0xED → b1 ≤ 0x9F))
    (h2 : 0x80 ≤ b2 ∧ b2 ≤ 0xBF) :
    decodeRune (b0 :: b1 :: b2 :: Y) = (b0 % 16 * 4096 + b1 % 64 * 64 + b2 % 64, 3) := by
  have hf := first_three b0 h0.1 h0.2
  have hr2 : ¬ (b2 < 0x80 ∨ 0xBF < b2) := by omega
  by_cases e0 : b0 = 0xE0
  · have hr : ¬ (b1 < 0xA0 ∨ 0xBF < b1) := by omega
    simp only [e0, if_true] at hf
    subst e0
    simp [decodeRune, hf, acceptRanges, hr, hr2]
  · by_cases ed : b0 = 0xED
    · have hr : ¬ (b1 < 0x80 ∨ 0x9F < b1) := by omega
      subst ed
      simp only [if_true, Nat.reduceEqDiff, if_false] at hf
      simp [decodeRune, hf, acceptRanges, hr, hr2]
    · have hr : ¬ (b1 < 0x80 ∨ 0xBF < b1) := by omega
      simp only [e0, ed, if_false] at hf
      simp [decodeRune, hf, acceptRanges, hr, hr2]

theorem decodeRune_bytes4 (b0 b1 b2 b3 : Nat) (Y : GoString) (h0 : 0xF0 ≤ b0 ∧ b0 ≤ 0xF4)
    (h1 : 0x80 ≤ b1 ∧ b1 ≤ 0xBF ∧ (b0 = 0xF0 → 0x90 ≤ b1) ∧ (b0 = 0xF4 → b1 ≤ 0x8F))
    (h2 : 0x80 ≤ b2 ∧ b2 ≤ 0xBF) (h3 : 0x80 ≤ b3 ∧ b3 ≤ 0xBF) :
    decodeRune (b0 :: b1 :: b2 :: b3 :: Y)
      = (b0 % 8 * 262144 + b1 % 64 * 4096 + b2 % 64 * 64 + b3 % 64, 4) := by
  have hf := first_four b0 h0.1 h0.2
  have hr2 : ¬ (b2 < 0x80 ∨ 0xBF < b2) := by omega
  have hr3 : ¬ (b3 < 0x80 ∨ 0xBF < b3) := by omega
  by_cases e0 : b0 = 0xF0
  · have hr : ¬ (b1 < 0x90 ∨ 0xBF < b1) := by omega
    simp only [e0, if_true] at hf
    subst e0
    simp [decodeRune, hf, acceptRanges, hr, hr2, hr3]
  · by_cases e4 : b0 = 0xF4
    · have hr : ¬ (b1 < 0x80 ∨ 0x8F < b1) := by omega
      subst e4
      simp only [if_true, Nat.reduceEqDiff, if_false] at hf
      simp [decodeRune, hf, acceptRanges, hr, hr2, hr3]
    · have hr : ¬ (b1 < 0x80 ∨ 0xBF < b1) := by omega
      simp only [e0, e4, if_false] at hf
      simp [decodeRune, hf, acceptRanges, hr, hr2, hr3]

/-- The encoding of a character: a first byte that is no continuation byte,
then continuation bytes only. -/
theorem encodeRune_shape (r : Nat) (hv : validRune r = true) :
    ∃ h tl, encodeRune r = h :: tl ∧ ¬ (0x80 ≤ h ∧ h ≤ 0xBF)
      ∧ (∀ x ∈ tl, 0x80 ≤ x ∧ x ≤ 0xBF) ∧ (h < 0x80 ↔ r < 0x80) := by
  simp only [validRune, decide_eq_true_eq] at hv
  unfold encodeRune
  split_ifs with h1 h2 h3 h4
  · exact ⟨_, _, rfl, by omega, by simp, by omega⟩
  · refine ⟨_, _, rfl, by omega, ?_, by omega⟩
    intro x hx
    simp only [List.mem_singleton] at hx
    omega
  · omega
  · refine ⟨_, _, rfl, by omega, ?_, by omega⟩
    intro x hx
    simp only [List.mem_cons, List.mem_singleton, List.not_mem_nil, or_false] at hx
    omega
  · refine ⟨_, _, rfl, by omega, ?_, by omega⟩
    intro x hx
    simp only [List.mem_cons, List.mem_singleton, List.not_mem_nil, or_false] at hx
    omega

/-- Decoding reads back a character from its encoding, whatever follows. -/
theorem decodeRune_encodeRune (r : Nat) (hv : validRune r = true) (Y : GoString) :
    decodeRune (encodeRune r ++ Y) = (r, (encodeRune r).length) := by
  simp only [validRune, decide_eq_true_eq] at hv
  unfold encodeRune
  split_ifs with h1 h2 h3 h4
  · simp only [List.singleton_append, List.length_singleton]
    exact decodeRune_ascii r Y (by omega)
  · simp only [List.cons_append, List.nil_append, List.length_cons, List.length_nil]
    rw [decodeRune_bytes2 _ _ _ (by omega) (by omega)]
    refine Prod.ext ?_ rfl
    show (0xC0 + r / 64) % 32 * 64 + (0x80 + r % 64) % 64 = r
    omega
  · omega
  · simp only [List.cons_append, List.nil_append, List.length_cons, List.length_nil]
    rw [decodeRune_bytes3 _ _ _ _ (by omega) (by omega) (by omega)]
    refine Prod.ext ?_ rfl
    show (0xE0 + r / 4096) % 16 * 4096 + (0x80 + r / 64 % 64) % 64 * 64 + (0x80 + r % 64) % 64 = r
    omega
  · simp only [List.cons_append, List.nil_append, List.length_cons, List.length_nil]
    rw [decodeRune_bytes4 _ _ _ _ _ (by omega) (by omega) (by omega) (by omega)]
    refine Prod.ext ?_ rfl
    show (0xF0 + r / 262144) % 8 * 262144 + (0x80 + r / 4096 % 64) % 64 * 4096
      + (0x80 + r / 64 % 64) % 64 * 64 + (0x80 + r % 64) % 64 = r
    omega

/-! ## UTF-8 text: strings and sequences of characters -/

theorem encodeRune_ne_nil (r : Nat) : encodeRune r ≠ [] := by
  unfold encodeRune
  split_ifs <;> simp

theorem encodeRune_invalid (r : Nat) (hv : validRune r = false) :
    encodeRune r = [0xEF, 0xBF, 0xBD] := by
  simp only [validRune, decide_eq_false_iff_not] at hv
  unfold encodeRune
  split_ifs <;> first | rfl | omega

theorem encodeRune_length_one (r : Nat) (h : (encodeRune r).length = 1) : r ≤ 0x7F := by
  unfold encodeRune at h
  split_ifs at h <;> first | assumption | simp at h

theorem encodeAll_nil : encodeAll [] = [] := rfl

theorem encodeAll_cons (r : Nat) (rs : List Nat) :
    encodeAll (r :: rs) = encodeRune r ++ encodeAll rs := rfl

theorem encodeAll_append (xs ys : List Nat) :
    encodeAll (xs ++ ys) = encodeAll xs ++ encodeAll ys := by
  simp only [encodeAll, List.flatMap_append]

theorem length_le_encodeAll (rs : List Nat) : rs.length ≤ (encodeAll rs).length := by
  induction rs with
  | nil => simp [encodeAll_nil]
  | cons r rs ih =>
    have h : 1 ≤ (encodeRune r).length := by
      cases hr : encodeRune r with
      | nil => exact absurd hr (encodeRune_ne_nil r)
      | cons x xs => simp
    simp only [encodeAll_cons, List.length_append, List.length_cons]
    omega

theorem runesLoop_cons (n b : Nat) (t : GoString) :
    runesLoop (n + 1) (b :: t)
      = (decodeRune (b :: t)).1 :: runesLoop n ((b :: t).drop (decodeRune (b :: t)).2) := rfl

theorem validLoop_cons (n b : Nat) (t : GoString) :
    validLoop (n + 1) (b :: t)
      = if (decodeRune (b :: t)).1 = RuneError ∧ (decodeRune (b :: t)).2 = 1 then false
        else validLoop n ((b :: t).drop (decodeRune (b :: t)).2) := rfl

theorem runesLoop_encodeAll : ∀ (rs : List Nat), (∀ c ∈ rs, validRune c = true) →
    ∀ n, rs.length ≤ n → runesLoop n (encodeAll rs) = rs := by
  intro rs
  induction rs with
  | nil =>
    intro _ n _
    cases n <;> rfl
  | cons r rs ih =>
    intro hv n hn
    have hr : validRune r = true := hv r (List.mem_cons_self _ _)
    have hrs : ∀ c ∈ rs, validRune c = true := fun c hc => hv c (List.mem_cons_of_mem _ hc)
    cases n with
    | zero => simp at hn
    | succ n =>
      have hd := decodeRune_encodeRune r hr (encodeAll rs)
      rw [encodeAll_cons]
      cases he : encodeRune r ++ encodeAll rs with
      | nil =>
        exfalso
        exact encodeRune_ne_nil r (List.append_eq_nil.mp he).1
      | cons b t =>
        rw [runesLoop_cons, ← he, hd]
        simp only [List.drop_left]
        rw [ih hrs n (by simpa using hn)]

/-- Reading the text of a sequence of characters gives the characters back. -/
theorem runes_encodeAll (rs : List Nat) (hv : ∀ c ∈ rs, validRune c = true) :
    runes (encodeAll rs) = rs :=
  runesLoop_encodeAll rs hv _ (length_le_encodeAll rs)

theorem validLoop_encodeAll : ∀ (rs : List Nat), (∀ c ∈ rs, validRune c = true) →
    ∀ n, rs.length ≤ n → validLoop n (encodeAll rs) = true := by
  intro rs
  induction rs with
  | nil =>
    intro _ n _
    cases n <;> rfl
  | cons r rs ih =>
    intro hv n hn
    have hr : validRune r = true := hv r (List.mem_cons_self _ _)
    have hrs : ∀ c ∈ rs, validRune c = true := fun c hc => hv c (List.mem_cons_of_mem _ hc)
    cases n with
    | zero => simp at hn
    | succ n =>
      have hd := decodeRune_encodeRune r hr (encodeAll rs)
      rw [encodeAll_cons]
      cases he : encodeRune r ++ encodeAll rs with
      | nil =>
        exfalso
        exact encodeRune_ne_nil r (List.append_eq_nil.mp he).1
      | cons b t =>
        rw [validLoop_cons, ← he, hd]
        have hne : ¬ (r = RuneError ∧ (encodeRune r).length = 1) := by
          rintro ⟨h1, h2⟩
          have := encodeRune_length_one r h2
          rw [h1] at this
          simp [RuneError] at this
        simp only [hne, if_false, List.drop_left]
        exact ih hrs n (by simpa using hn)

/-- The text of a sequence of characters is valid UTF-8. -/
theorem validString_encodeAll (rs : List Nat) (hv : ∀ c ∈ rs, validRune c = true) :
    validString (encodeAll rs) = true :=
  validLoop_encodeAll rs hv _ (length_le_encodeAll rs)

theorem encodeAll_runesLoop : ∀ (n : Nat) (s : GoString), s.length ≤ n → validLoop n s = true →
    encodeAll (runesLoop n s) = s ∧ ∀ c ∈ runesLoop n s, validRune c = true := by
  intro n
  induction n with
  | zero =>
    intro s hs _
    have : s = [] := List.length_eq_zero.mp (by omega)
    subst this
    exact ⟨rfl, by simp [runesLoop]⟩
  | succ n ih =>
    intro s hs hv
    cases s with
    | nil => exact ⟨rfl, by simp [runesLoop]⟩
    | cons b t =>
      rw [validLoop_cons] at hv
      split_ifs at hv with hbad
      rw [runesLoop_cons]
      by_cases hb : b < 0x80
      · rw [decodeRune_ascii b t hb] at hv ⊢
        simp only [List.drop_succ_cons, List.drop_zero] at hv ⊢
        obtain ⟨h1, h2⟩ := ih t (by simpa using hs) hv
        refine ⟨?_, ?_⟩
        · rw [encodeAll_cons, h1]
          have : encodeRune b = [b] := by
            unfold encodeRune
            rw [if_pos (by omega)]
          rw [this]
          rfl
        · intro c hc
          rcases List.mem_cons.mp hc with hc | hc
          · subst hc
            simp only [validRune, decide_eq_true_eq]
            omega
          · exact h2 c hc
      · obtain ⟨pre, post, e1, e2, e3, e4⟩ := decodeRune_valid b t (by omega) hbad
        have hpos := decodeRune_size_pos b t
        have hdrop : (b :: t).drop (decodeRune (b :: t)).2 = post := by
          rw [← e2, e1, List.drop_left]
        rw [hdrop] at hv ⊢
        have hlen : post.length ≤ n := by
          have := congrArg List.length e1
          simp only [List.length_cons, List.length_append] at this hs
          omega
        obtain ⟨h1, h2⟩ := ih post hlen hv
        have hvr : validRune (decodeRune (b :: t)).1 = true := by
          by_contra hcon
          have hf : validRune (decodeRune (b :: t)).1 = false := by simpa using hcon
          have hpre := encodeRune_invalid _ hf
          rw [e3] at hpre
          have h3 := e4 []
          rw [hpre] at h3
          have h4 : decodeRune ([0xEF, 0xBF, 0xBD] ++ []) = (0xFFFD, 3) := by
            simp only [List.cons_append, List.nil_append]
            rw [decodeRune_bytes3 _ _ _ _ (by omega) (by omega) (by omega)]
          rw [h4] at h3
          rw [← h3] at hf
          simp [validRune] at hf
        refine ⟨?_, ?_⟩
        · rw [encodeAll_cons, h1, e3, e1]
        · intro c hc
          rcases List.mem_cons.mp hc with hc | hc
          · rw [hc]; exact hvr
          · exact h2 c hc

/-- A valid string is the text of the characters read from it, and these are
characters indeed. -/
theorem encodeAll_runes (s : GoString) (hv : validString s = true) :
    encodeAll (runes s) = s ∧ ∀ c ∈ runes s, validRune c = true :=
  encodeAll_runesLoop s.length s (le_refl _) hv

/-- No text is a proper beginning of another in the middle of a character: a
text that begins another consists of the characters that begin it. -/
theorem encodeAll_isPrefix : ∀ (B A : List Nat), (∀ c ∈ B, validRune c = true) →
    (∀ c ∈ A, validRune c = true) → encodeAll B <+: encodeAll A → B <+: A := by
  intro B
  induction B with
  | nil => intro A _ _ _; exact List.nil_prefix
  | cons b B ih =>
    intro A hB hA h
    have hb : validRune b = true := hB b (List.mem_cons_self _ _)
    have hB2 : ∀ c ∈ B, validRune c = true := fun c hc => hB c (List.mem_cons_of_mem _ hc)
    cases A with
    | nil =>
      exfalso
      rw [encodeAll_cons, encodeAll_nil] at h
      have := List.prefix_nil.mp h
      exact encodeRune_ne_nil b (List.append_eq_nil.mp this).1
    | cons a A =>
      have ha : validRune a = true := hA a (List.mem_cons_self _ _)
      have hA2 : ∀ c ∈ A, validRune c = true := fun c hc => hA c (List.mem_cons_of_mem _ hc)
      obtain ⟨Z, hZ⟩ := h
      rw [encodeAll_cons, encodeAll_cons, List.append_assoc] at hZ
      have d1 := decodeRune_encodeRune b hb (encodeAll B ++ Z)
      have d2 := decodeRune_encodeRune a ha (encodeAll A)
      rw [hZ, d2] at d1
      have hab : a = b := congrArg Prod.fst d1
      subst hab
      have hrest : encodeAll B ++ Z = encodeAll A := List.append_cancel_left hZ
      have := ih A hB2 hA2 ⟨Z, hrest⟩
      exact (List.cons_prefix_cons).mpr ⟨rfl, this⟩

theorem encodeAll_head (B : List Nat) (hB : ∀ c ∈ B, validRune c = true) (x : Nat)
    (t : GoString) (h : encodeAll B = x :: t) : ¬ (0x80 ≤ x ∧ x ≤ 0xBF) := by
  cases B with
  | nil => simp [encodeAll_nil] at h
  | cons b B =>
    obtain ⟨hd, tl, e, hh, _, _⟩ := encodeRune_shape b (hB b (List.mem_cons_self _ _))
    rw [encodeAll_cons, e] at h
    simp only [List.cons_append, List.cons.injEq] at h
    rw [← h.1]
    exact hh

/-- A text found after continuation bytes starts after them. -/
theorem infix_skip_continuation (B : List Nat) (hB : ∀ c ∈ B, validRune c = true) :
    ∀ (c X : GoString), (∀ x ∈ c, 0x80 ≤ x ∧ x ≤ 0xBF) → encodeAll B <:+: c ++ X →
      encodeAll B <:+: X := by
  intro c
  induction c with
  | nil => intro X _ h; simpa using h
  | cons x c ih =>
    intro X hc h
    rw [List.cons_append, List.infix_cons_iff] at h
    rcases h with h | h
    · cases he : encodeAll B with
      | nil => exact List.nil_infix
      | cons y t =>
        exfalso
        rw [he] at h
        have hxy : y = x := by
          obtain ⟨Z, hZ⟩ := h
          simp only [List.cons_append, List.cons.injEq] at hZ
          exact hZ.1
        have := encodeAll_head B hB y t he
        have hx := hc x (List.mem_cons_self _ _)
        omega
    · exact ih X (fun y hy => hc y (List.mem_cons_of_mem _ hy)) h

/-- UTF-8 is self-synchronising: a text occurs inside another exactly where its
characters occur one after another among the characters of the other. -/
theorem encodeAll_isInfix (B : List Nat) (hB : ∀ c ∈ B, validRune c = true) :
    ∀ (A : List Nat), (∀ c ∈ A, validRune c = true) →
      (encodeAll B <:+: encodeAll A ↔ B <:+: A) := by
  intro A hA
  constructor
  · induction A with
    | nil =>
      intro h
      rw [encodeAll_nil] at h
      have hnil := List.infix_nil.mp h
      cases B with
      | nil => exact List.infix_refl _
      | cons b B =>
        exfalso
        rw [encodeAll_cons] at hnil
        exact encodeRune_ne_nil b (List.append_eq_nil.mp hnil).1
    | cons a A ih =>
      intro h
      have ha : validRune a = true := hA a (List.mem_cons_self _ _)
      have hA2 : ∀ c ∈ A, validRune c = true := fun c hc => hA c (List.mem_cons_of_mem _ hc)
      obtain ⟨hd, tl, e, _, htl, _⟩ := encodeRune_shape a ha
      have h2 := h
      rw [encodeAll_cons, e, List.cons_append, List.infix_cons_iff] at h2
      rcases h2 with h2 | h2
      · have : encodeAll B <+: encodeAll (a :: A) := by
          rw [encodeAll_cons, e]
          exact h2
        exact (encodeAll_isPrefix B (a :: A) hB hA this).isInfix
      · have := infix_skip_continuation B hB tl (encodeAll A) htl h2
        exact List.infix_cons (ih hA2 this)
  · rintro ⟨p, q, rfl⟩
    rw [encodeAll_append, encodeAll_append]
    exact ⟨encodeAll p, encodeAll q, rfl⟩

theorem runesLoop_ascii : ∀ (n : Nat) (s : GoString), s.length ≤ n → (∀ c ∈ s, c < 0x80) →
    runesLoop n s = s := by
  intro n
  induction n with
  | zero =>
    intro s hs _
    have : s = [] := List.length_eq_zero.mp (by omega)
    subst this
    rfl
  | succ n ih =>
    intro s hs ha
    cases s with
    | nil => rfl
    | cons b t =>
      rw [runesLoop_cons, decodeRune_ascii b t (ha b (List.mem_cons_self _ _))]
      simp only [List.drop_succ_cons, List.drop_zero]
      rw [ih t (by simpa using hs) (fun c hc => ha c (List.mem_cons_of_mem _ hc))]

theorem runes_ascii (s : GoString) (ha : ∀ c ∈ s, c < 0x80) : runes s = s :=
  runesLoop_ascii s.length s (le_refl _) ha

theorem encodeAll_ascii (s : GoString) (ha : ∀ c ∈ s, c < 0x80) : encodeAll s = s := by
  induction s with
  | nil => rfl
  | cons b t ih =>
    have : encodeRune b = [b] := by
      unfold encodeRune
      rw [if_pos (by have := ha b (List.mem_cons_self _ _); omega)]
    rw [encodeAll_cons, this, ih (fun c hc => ha c (List.mem_cons_of_mem _ hc))]
    rfl

theorem validRune_ascii (c : Nat) (h : c < 0x80) : validRune c = true := by
  simp only [validRune, decide_eq_true_eq]
  omega

theorem validString_ascii (s : GoString) (ha : ∀ c ∈ s, c < 0x80) : validString s = true := by
  have := validString_encodeAll s (fun c hc => validRune_ascii c (ha c hc))
  rwa [encodeAll_ascii s ha] at this

/-! ## Search -/

theorem contains_iff (s substr : GoString) : Contains s substr = true ↔ substr <:+: s := by
  induction s with
  | nil =>
    simp only [Contains, List.isEmpty_iff, List.infix_nil]
  | cons c rest ih =>
    simp only [Contains, Bool.or_eq_true, ih, List.isPrefixOf_iff_prefix, List.infix_cons_iff]

theorem specLowerASCII_lt (c : Nat) (h : c < 0x80) : specLowerASCII c < 0x80 := by
  unfold specLowerASCII
  split_ifs <;> omega

theorem toLower_ascii (U : UnicodeTables) (s : GoString) (ha : ∀ c ∈ s, c < 0x80) :
    ToLower U s = s.map specLowerASCII := by
  have h : s.all (fun c => decide (c < 0x80)) = true := by
    simpa [List.all_eq_true] using ha
  simp only [ToLower, h, if_true]
  rfl

theorem unicodeToLower_eq (U : UnicodeTables) (r : Nat) :
    unicodeToLower U r = specLowerRune U r := by
  unfold unicodeToLower specLowerRune specLowerASCII
  by_cases h : r < 0x80
  · rw [if_pos (by omega), if_pos h]
  · rw [if_neg (by omega), if_neg h]

/-- The lower-case form of a string is the text of its characters, each put in
lower case. -/
theorem toLower_eq (U : UnicodeTables) (s : GoString) :
    ToLower U s = encodeAll ((runes s).map (specLowerRune U)) := by
  by_cases h : s.all (fun c => decide (c < 0x80)) = true
  · have ha : ∀ c ∈ s, c < 0x80 := by simpa [List.all_eq_true] using h
    rw [toLower_ascii U s ha, runes_ascii s ha]
    have hm : s.map (specLowerRune U) = s.map specLowerASCII := by
      apply List.map_congr_left
      intro c hc
      simp only [specLowerRune, ha c hc, if_true]
    rw [hm, encodeAll_ascii]
    intro c hc
    obtain ⟨x, hx, rfl⟩ := List.mem_map.mp hc
    exact specLowerASCII_lt x (ha x hx)
  · simp only [ToLower, h, if_false, encodeAll, List.flatMap_map, Bool.false_eq_true]
    congr 1
    funext c
    rw [unicodeToLower_eq]

theorem validRune_specLowerRune (U : UnicodeTables)
    (htab : ∀ r, validRune r = true → validRune (U.toLower r) = true) (r : Nat)
    (hr : validRune r = true) : validRune (specLowerRune U r) = true := by
  unfold specLowerRune
  split_ifs with h
  · exact validRune_ascii _ (specLowerASCII_lt r h)
  · exact htab r hr

/-- On valid UTF-8, the test of `searchTodos` is containment with letter case
ignored, character by character. -/
theorem contains_toLower_iff (U : UnicodeTables)
    (htab : ∀ r, validRune r = true → validRune (U.toLower r) = true)
    (title keyword : GoString) (hvt : validString title = true)
    (hvk : validString keyword = true) :
    Contains (ToLower U title) (ToLower U keyword) = true
      ↔ specContainsIgnoringCase U title keyword := by
  obtain ⟨et, vt⟩ := encodeAll_runes title hvt
  obtain ⟨ek, vk⟩ := encodeAll_runes keyword hvk
  have hmap : ∀ l : List Nat, (∀ c ∈ l, validRune c = true) →
      ∀ c ∈ l.map (specLowerRune U), validRune c = true := by
    intro l hl c hc
    obtain ⟨x, hx, rfl⟩ := List.mem_map.mp hc
    exact validRune_specLowerRune U htab x (hl x hx)
  rw [contains_iff, toLower_eq, toLower_eq,
    encodeAll_isInfix _ (hmap _ vk) _ (hmap _ vt)]
  constructor
  · intro h
    exact ⟨runes title, runes keyword, vt, vk, et.symm, ek.symm, h⟩
  · rintro ⟨ct, ck, hct, hck, e1, e2, h⟩
    rw [e1, e2, runes_encodeAll ct hct, runes_encodeAll ck hck]
    exact h

theorem searchTodos_eq (U : UnicodeTables) (todos : List Todo) (keyword : GoString) :
    searchTodos U todos keyword
      = getInputPrompt (str "Enter a keyword to search:")
        ++ listTodos (todos.filter (fun t => Contains (ToLower U t.Title) (ToLower U keyword))) := by
  simp only [searchTodos, foldl_append_if, List.nil_append, Bool.decide_eq_true]

/-- C7, for valid UTF-8: `searchTodos` lists, in store order, exactly the
records whose title contains the keyword as a substring with letter case
ignored. For ASCII strings this holds whatever the tables of Unicode are, with
the lower case of ASCII letters; for valid UTF-8 strings it holds character by
character, with the lower case of the tables, which map characters to
characters. The keyword `eet` finds a record titled `Meeting` and leaves out
one titled `Lunch`, `MEET` finds `meeting`, `meet` finds `MEETING`, and `eat`
does not find `Meeting`. -/
theorem searchTodos_spec (U : UnicodeTables) :
    (∀ (todos : List Todo) (keyword : GoString),
      searchTodos U todos keyword
        = getInputPrompt (str "Enter a keyword to search:")
          ++ listTodos (todos.filter (fun t => decide (ToLower U keyword <:+: ToLower U t.Title))))
    ∧ (∀ (todos : List Todo) (keyword : GoString), (∀ c ∈ keyword, c < 0x80) →
        (∀ t ∈ todos, ∀ c ∈ t.Title, c < 0x80) →
        searchTodos U todos keyword
          = getInputPrompt (str "Enter a keyword to search:")
            ++ listTodos (todos.filter
                (fun t => decide (specContainsIgnoringCaseASCII t.Title keyword))))
    ∧ ((∀ r, validRune r = true → validRune (U.toLower r) = true) →
        ∀ (todos : List Todo) (keyword : GoString), validString keyword = true →
          (∀ t ∈ todos, validString t.Title = true) →
          ∃ shown : Todo → Bool,
            (∀ t ∈ todos, shown t = true ↔ specContainsIgnoringCase U t.Title keyword)
            ∧ searchTodos U todos keyword
              = getInputPrompt (str "Enter a keyword to search:")
                ++ listTodos (todos.filter shown))
    ∧ ToLower U (str "eet") <:+: ToLower U (str "Meeting")
    ∧ (∀ (todos : List Todo) (t : Todo), t ∈ todos → t.Title = str "Meeting" →
        t ∈ todos.filter (fun t => decide (ToLower U (str "eet") <:+: ToLower U t.Title)))
    ∧ (∀ d1 c1 p1 d2 c2 p2,
        searchTodos U [⟨str "Lunch", d1, c1, p1⟩, ⟨str "Meeting", d2, c2, p2⟩] (str "eet")
          = getInputPrompt (str "Enter a keyword to search:")
            ++ listTodos [⟨str "Meeting", d2, c2, p2⟩])
    ∧ (∀ d c p,
        searchTodos U [⟨str "meeting", d, c, p⟩] (str "MEET")
          = getInputPrompt (str "Enter a keyword to search:")
            ++ listTodos [⟨str "meeting", d, c, p⟩])
    ∧ (∀ d c p,
        searchTodos U [⟨str "MEETING", d, c, p⟩] (str "meet")
          = getInputPrompt (str "Enter a keyword to search:")
            ++ listTodos [⟨str "MEETING", d, c, p⟩])
    ∧ (∀ d c p,
        searchTodos U [⟨str "Meeting", d, c, p⟩] (str "eat")
          = getInputPrompt (str "Enter a keyword to search:")
            ++ println (str "📭 No to-dos found!")) := by
  have h2 : ToLower U (str "eet") <:+: ToLower U (str "Meeting") := by
    rw [← contains_iff]
    rfl
  refine ⟨?_, ?_, ?_, h2, ?_, ?_, ?_, ?_, ?_⟩
  · intro todos keyword
    simp only [searchTodos, foldl_append_if, List.nil_append, contains_iff]
  · intro todos keyword hk ht
    rw [searchTodos_eq]
    congr 2
    apply List.filter_congr
    intro t htm
    rw [toLower_ascii U _ (ht t htm), toLower_ascii U _ hk]
    rw [Bool.eq_iff_iff, contains_iff, decide_eq_true_eq]
    rfl
  · intro htab todos keyword hk ht
    refine ⟨fun t => Contains (ToLower U t.Title) (ToLower U keyword), ?_, searchTodos_eq U _ _⟩
    intro t htm
    exact contains_toLower_iff U htab t.Title keyword (ht t htm) hk
  · intro todos t ht htitle
    simp only [List.mem_filter, decide_eq_true_eq]
    exact ⟨ht, by rw [htitle]; exact h2⟩
  · intro d1 c1 p1 d2 c2 p2
    rw [searchTodos_eq]
    rfl
  · intro d c p
    rw [searchTodos_eq]
    rfl
  · intro d c p
    rw [searchTodos_eq]
    rfl
  · intro d c p
    rw [searchTodos_eq]
    rfl

theorem sample_htab (r : Nat) (h : validRune r = true) :
    validRune (sampleTables.toLower r) = true := by
  simp only [sampleTables]
  split_ifs
  · rfl
  · exact h

/-- Witness of C7, with the sample tables: the keyword `MEET` on a store
holding `Lunch` and `Meeting`, and the keyword `kel` on a store holding `Lunch`
and `Kelvin` written with the Kelvin sign U+212A, whose lower case is `k`; the
keyword `eet` on the first store. -/
theorem searchTodos_spec_witness :
    searchTodos sampleTables [⟨str "Lunch", false, str "Home", str "Low"⟩,
        ⟨str "Meeting", false, str "Work", str "High"⟩] (str "MEET")
      = getInputPrompt (str "Enter a keyword to search:")
        ++ listTodos ([(⟨str "Lunch", false, str "Home", str "Low"⟩ : Todo),
            ⟨str "Meeting", false, str "Work", str "High"⟩].filter
            (fun t => decide (specContainsIgnoringCaseASCII t.Title (str "MEET"))))
    ∧ (∃ shown : Todo → Bool,
        (∀ t ∈ [(⟨str "Lunch", false, str "Home", str "Low"⟩ : Todo),
            ⟨[0xE2, 0x84, 0xAA] ++ str "elvin", false, str "Work", str "High"⟩],
          shown t = true ↔ specContainsIgnoringCase sampleTables t.Title (str "kel"))
        ∧ searchTodos sampleTables [⟨str "Lunch", false, str "Home", str "Low"⟩,
            ⟨[0xE2, 0x84, 0xAA] ++ str "elvin", false, str "Work", str "High"⟩] (str "kel")
          = getInputPrompt (str "Enter a keyword to search:")
            ++ listTodos ([(⟨str "Lunch", false, str "Home", str "Low"⟩ : Todo),
              ⟨[0xE2, 0x84, 0xAA] ++ str "elvin", false, str "Work", str "High"⟩].filter shown))
    ∧ searchTodos sampleTables [⟨str "Lunch", false, str "Home", str "Low"⟩,
        ⟨str "Meeting", false, str "Work", str "High"⟩] (str "MEET")
      = getInputPrompt (str "Enter a keyword to search:")
        ++ listTodos [⟨str "Meeting", false, str "Work", str "High"⟩]
    ∧ searchTodos sampleTables [⟨str "Lunch", false, str "Home", str "Low"⟩,
        ⟨[0xE2, 0x84, 0xAA] ++ str "elvin", false, str "Work", str "High"⟩] (str "kel")
      = getInputPrompt (str "Enter a keyword to search:")
        ++ listTodos [⟨[0xE2, 0x84, 0xAA] ++ str "elvin", false, str "Work", str "High"⟩]
    ∧ (⟨str "Meeting", false, str "Work", str "High"⟩ : Todo)
      ∈ [(⟨str "Lunch", false, str "Home", str "Low"⟩ : Todo),
          ⟨str "Meeting", false, str "Work", str "High"⟩].filter
          (fun t => decide (ToLower sampleTables (str "eet") <:+: ToLower sampleTables t.Title)) :=
  ⟨(searchTodos_spec sampleTables).2.1 _ (str "MEET") (by decide) (by decide),
    (searchTodos_spec sampleTables).2.2.1 sample_htab _ (str "kel") (by decide) (by decide),
    by decide, by decide,
    (searchTodos_spec sampleTables).2.2.2.2.1
      [⟨str "Lunch", false, str "Home", str "Low"⟩, ⟨str "Meeting", false, str "Work", str "High"⟩]
      ⟨str "Meeting", false, str "Work", str "High"⟩ (by decide) rfl⟩

/-- Counterexample to C7 as stated: the bytes `0xFF` and `0xFE` are not valid
UTF-8, and `ToLower` writes each as the encoding `EF BF BD` of U+FFFD. On a
store with one record titled `A 0xFF b` the keyword `0xFE` lists that record,
though the byte `0xFE` does not occur in the title, with or without the case of
letters, and is the text of no characters at all. -/
theorem searchTodos_invalid_utf8 :
    searchTodos sampleTables [⟨[0x41, 0xFF, 0x62], false, str "Home", str "Low"⟩] [0xFE]
      = getInputPrompt (str "Enter a keyword to search:")
        ++ listTodos [⟨[0x41, 0xFF, 0x62], false, str "Home", str "Low"⟩]
    ∧ listTodos [⟨[0x41, 0xFF, 0x62], false, str "Home", str "Low"⟩]
      = println (str "\n📌 Your To-Do List:")
        ++ str "1. [Not Done] " ++ [0x41, 0xFF, 0x62] ++ str " (Category: Home, Priority: Low)\n"
    ∧ ToLower sampleTables [0x41, 0xFF, 0x62] = [0x61, 0xEF, 0xBF, 0xBD, 0x62]
    ∧ ToLower sampleTables [0xFE] = [0xEF, 0xBF, 0xBD]
    ∧ ¬ ([0xFE] <:+: [0x41, 0xFF, 0x62])
    ∧ ¬ specContainsIgnoringCaseASCII [0x41, 0xFF, 0x62] [0xFE]
    ∧ ¬ specContainsIgnoringCase sampleTables [0x41, 0xFF, 0x62] [0xFE]
    ∧ validString [0x41, 0xFF, 0x62] = false ∧ validString [0xFE] = false := by
  refine ⟨by decide, by decide, by decide, by decide, by decide, by decide, ?_,
    by decide, by decide⟩
  rintro ⟨ct, ck, _, hck, _, e2, _⟩
  have := validString_encodeAll ck hck
  rw [← e2] at this
  revert this
  decide

/-! ## Filter by category -/

theorem foldWalk_succ (U : UnicodeTables) (sr tr n r : Nat) :
    foldWalk U sr tr (n + 1) r
      = if r ≠ sr ∧ r < tr then foldWalk U sr tr n (SimpleFold U r) else r := rfl

theorem foldWalk_three (U : UnicodeTables) (sr tr r : Nat) :
    foldWalk U sr tr 0x110000 r
      = if r ≠ sr ∧ r < tr then
          if SimpleFold U r ≠ sr ∧ SimpleFold U r < tr then
            if SimpleFold U (SimpleFold U r) ≠ sr ∧ SimpleFold U (SimpleFold U r) < tr then
              foldWalk U sr tr 1114109 (SimpleFold U (SimpleFold U (SimpleFold U r)))
            else SimpleFold U (SimpleFold U r)
          else SimpleFold U r
        else r := by
  have h : (0x110000 : Nat) = 1114109 + 1 + 1 + 1 := by norm_num
  rw [h, foldWalk_succ, foldWalk_succ, foldWalk_succ]

theorem simpleFold_upper (U : UnicodeTables) (a : Nat) (ha : 0x41 ≤ a ∧ a ≤ 0x5A) :
    SimpleFold U a = a + 0x20 := by
  have h1 : ¬ (a > 0x10FFFF) := by omega
  have h2 : a < 0x80 := by omega
  simp only [SimpleFold, h1, h2, if_true, if_false, asciiFold, ha, and_self]

theorem simpleFold_lower (U : UnicodeTables) (a : Nat) (ha : 0x41 ≤ a ∧ a ≤ 0x5A)
    (hk : a ≠ 0x4B) (hs : a ≠ 0x53) : SimpleFold U (a + 0x20) = a := by
  have h1 : ¬ (a + 0x20 > 0x10FFFF) := by omega
  have h2 : a + 0x20 < 0x80 := by omega
  have h3 : ¬ (0x41 ≤ a + 0x20 ∧ a + 0x20 ≤ 0x5A) := by omega
  have h4 : ¬ (a + 0x20 = 0x6B) := by omega
  have h5 : ¬ (a + 0x20 = 0x73) := by omega
  have h6 : 0x61 ≤ a + 0x20 ∧ a + 0x20 ≤ 0x7A := by omega
  simp only [SimpleFold, h1, h2, if_true, if_false, asciiFold, h3, h4, h5, h6, and_self,
    Nat.add_sub_cancel]

theorem equalFoldRune_ascii (U : UnicodeTables) (x a : Nat) (hx : x < 0x80)
    (ha : 0x41 ≤ a ∧ a ≤ 0x5A) : equalFoldRune U x a = equalFoldRune U x (a + 0x20) := by
  simp only [equalFoldRune]
  split_ifs <;> simp only [decide_eq_decide, true_eq_decide_iff, decide_eq_true_eq, Bool.true_eq,
    Bool.decide_eq_true] <;> omega

theorem equalFoldRune_pair (U : UnicodeTables) (x a : Nat) (ha : 0x41 ≤ a ∧ a ≤ 0x5A)
    (hk : a ≠ 0x4B) (hs : a ≠ 0x53) : equalFoldRune U x a = equalFoldRune U x (a + 0x20) := by
  by_cases hx : x < 0x80
  · exact equalFoldRune_ascii U x a hx ha
  · have e1 : ¬ (a = x) := by omega
    have e2 : a < x := by omega
    have e3 : ¬ (a + 0x20 = x) := by omega
    have e4 : a + 0x20 < x := by omega
    have e5 : ¬ (a = a + 0x20) := by omega
    have e6 : ¬ (a + 0x20 = a) := by omega
    simp only [equalFoldRune, e1, e2, e3, e4, hx, if_true, if_false, foldWalk_three,
      simpleFold_upper U a ha, simpleFold_lower U a ha hk hs, e5, e6, ne_eq, not_false_eq_true,
      not_true_eq_false, and_self, true_and, false_and, decide_False]

theorem equalFoldRune_K (U : UnicodeTables) (hK : U.simpleFold 0x212A = 0x4B) (x : Nat) :
    equalFoldRune U x 0x4B = equalFoldRune U x 0x6B := by
  by_cases hx : x < 0x80
  · exact equalFoldRune_ascii U x 0x4B hx (by decide)
  · have s1 : SimpleFold U 0x4B = 0x6B := rfl
    have s2 : SimpleFold U 0x6B = 0x212A := rfl
    have s3 : SimpleFold U 0x212A = 0x4B := hK
    have e1 : ¬ (0x4B = x) := by omega
    have e2 : 0x4B < x := by omega
    have e3 : ¬ (0x6B = x) := by omega
    have e4 : 0x6B < x := by omega
    simp only [equalFoldRune, e1, e2, e3, e4, hx, if_true, if_false, foldWalk_three,
      s1, s2, s3, ne_eq, not_false_eq_true, not_true_eq_false, and_self, true_and, false_and,
      Nat.reduceEqDiff]
    by_cases h : 0x212A < x
    · have e5 : ¬ (0x4B = x) := by omega
      have e6 : ¬ (0x6B = x) := by omega
      simp [h, e5, e6]
    · simp [h]

theorem equalFoldRune_S (U : UnicodeTables) (hS : U.simpleFold 0x17F = 0x53) (x : Nat) :
    equalFoldRune U x 0x53 = equalFoldRune U x 0x73 := by
  by_cases hx : x < 0x80
  · exact equalFoldRune_ascii U x 0x53 hx (by decide)
  · have s1 : SimpleFold U 0x53 = 0x73 := rfl
    have s2 : SimpleFold U 0x73 = 0x17F := rfl
    have s3 : SimpleFold U 0x17F = 0x53 := hS
    have e1 : ¬ (0x53 = x) := by omega
    have e2 : 0x53 < x := by omega
    have e3 : ¬ (0x73 = x) := by omega
    have e4 : 0x73 < x := by omega
    simp only [equalFoldRune, e1, e2, e3, e4, hx, if_true, if_false, foldWalk_three,
      s1, s2, s3, ne_eq, not_false_eq_true, not_true_eq_false, and_self, true_and, false_and,
      Nat.reduceEqDiff]
    by_cases h : 0x17F < x
    · have e5 : ¬ (0x53 = x) := by omega
      have e6 : ¬ (0x73 = x) := by omega
      simp [h, e5, e6]
    · simp [h]

theorem acceptRanges_bounds (i : Nat) :
    0x7A < (acceptRanges i).1 ∨ (acceptRanges i).2 < 0x41 := by
  unfold acceptRanges
  split <;> simp

theorem specSameLetter_range (x y lo hi : Nat) (h : specSameLetter x y)
    (hb : 0x7A < lo ∨ hi < 0x41) :
    ((y < lo ∨ hi < y) ↔ (x < lo ∨ hi < x)) ∧ (¬ (x < lo ∨ hi < x) → y = x) := by
  unfold specSameLetter at h
  omega

/-- What `decodeRune` reads after a first byte is the same for two strings that
differ only in the case of ASCII letters: no such letter continues an encoding. -/
theorem decodeRune_congr (a : Nat) (t1 t2 : GoString)
    (h : List.Forall₂ specSameLetter t1 t2) : decodeRune (a :: t1) = decodeRune (a :: t2) := by
  cases h with
  | nil => rfl
  | cons h1 r1 =>
    rename_i x1 y1 u1 v1
    have l1 : u1.length = v1.length := r1.length_eq
    obtain ⟨e1, f1⟩ := specSameLetter_range x1 y1 _ _ h1 (acceptRanges_bounds (first a / 16))
    by_cases c1 : x1 < (acceptRanges (first a / 16)).1 ∨ (acceptRanges (first a / 16)).2 < x1
    · simp only [decodeRune, List.length_cons, l1, c1, e1.mpr c1, if_true]
    · have := f1 c1
      subst this
      cases r1 with
      | nil => rfl
      | cons h2 r2 =>
        rename_i x2 y2 u2 v2
        have l2 : u2.length = v2.length := r2.length_eq
        obtain ⟨e2, f2⟩ := specSameLetter_range x2 y2 0x80 0xBF h2 (Or.inl (by decide))
        by_cases c2 : x2 < 0x80 ∨ 0xBF < x2
        · simp only [decodeRune, List.length_cons, l2, c1, c2, e2.mpr c2, if_true, if_false]
        · have := f2 c2
          subst this
          cases r2 with
          | nil => rfl
          | cons h3 r3 =>
            rename_i x3 y3 u3 v3
            have l3 : u3.length = v3.length := r3.length_eq
            obtain ⟨e3, f3⟩ := specSameLetter_range x3 y3 0x80 0xBF h3 (Or.inl (by decide))
            by_cases c3 : x3 < 0x80 ∨ 0xBF < x3
            · simp only [decodeRune, List.length_cons, l3, c1, c2, c3, e3.mpr c3, if_true,
                if_false]
            · have := f3 c3
              subst this
              simp only [decodeRune, List.length_cons, l3]

theorem runesLoop_congr : ∀ (n : Nat) (s t : GoString), List.Forall₂ specSameLetter s t →
    List.Forall₂ specSameLetter (runesLoop n s) (runesLoop n t) := by
  intro n
  induction n with
  | zero => intro s t _; exact List.Forall₂.nil
  | succ n ih =>
    intro s t h
    cases h with
    | nil => exact List.Forall₂.nil
    | cons hab r =>
      rename_i a b u v
      by_cases ha : a < 0x80
      · have hb : b < 0x80 := by unfold specSameLetter at hab; omega
        simp only [runesLoop, decodeRune_ascii a u ha, decodeRune_ascii b v hb,
          List.drop_succ_cons, List.drop_zero]
        exact List.Forall₂.cons hab (ih u v r)
      · have hb : b = a := by unfold specSameLetter at hab; omega
        subst hb
        have hd := decodeRune_congr b u v r
        simp only [runesLoop, hd]
        exact List.Forall₂.cons (Or.inl rfl)
          (ih _ _ (List.forall₂_drop _ (List.Forall₂.cons (Or.inl rfl) r)))

theorem runes_congr (s t : GoString) (h : specDifferOnlyInCase s t) :
    List.Forall₂ specSameLetter (runes s) (runes t) := by
  have hl : s.length = t.length := List.Forall₂.length_eq h
  unfold runes
  rw [← hl]
  exact runesLoop_congr s.length s t h

theorem equalFoldRune_sameLetter (U : UnicodeTables) (hK : U.simpleFold 0x212A = 0x4B)
    (hS : U.simpleFold 0x17F = 0x53) (x a b : Nat) (h : specSameLetter a b) :
    equalFoldRune U x a = equalFoldRune U x b := by
  have key : ∀ c : Nat, 0x41 ≤ c ∧ c ≤ 0x5A → equalFoldRune U x c = equalFoldRune U x (c + 0x20) := by
    intro c hc
    by_cases hk : c = 0x4B
    · subst hk; exact equalFoldRune_K U hK x
    · by_cases hs : c = 0x53
      · subst hs; exact equalFoldRune_S U hS x
      · exact equalFoldRune_pair U x c hc hk hs
  rcases h with h | ⟨h1, h2, h3⟩ | ⟨h1, h2, h3⟩
  · rw [h]
  · rw [h3]; exact key a ⟨h1, h2⟩
  · rw [h3]; exact (key b ⟨h1, h2⟩).symm

theorem equalFoldRunes_congr (U : UnicodeTables) (hK : U.simpleFold 0x212A = 0x4B)
    (hS : U.simpleFold 0x17F = 0x53) (c1 c2 : List Nat) (h : List.Forall₂ specSameLetter c1 c2) :
    ∀ xs : List Nat, equalFoldRunes U xs c1 = equalFoldRunes U xs c2 := by
  induction h with
  | nil => intro xs; rfl
  | cons hab _ ih =>
    intro xs
    cases xs with
    | nil => rfl
    | cons x xs =>
      simp only [equalFoldRunes]
      rw [equalFoldRune_sameLetter U hK hS x _ _ hab, ih xs]

theorem equalFoldRunes_length (U : UnicodeTables) (s : List Nat) :
    ∀ t, equalFoldRunes U s t = true → s.length = t.length := by
  induction s with
  | nil =>
    intro t h
    cases t with
    | nil => rfl
    | cons b t => simp [equalFoldRunes] at h
  | cons a s ih =>
    intro t h
    cases t with
    | nil => simp [equalFoldRunes] at h
    | cons b t =>
      simp only [equalFoldRunes, Bool.and_eq_true] at h
      simp [ih t h.2]

theorem equalFoldRunes_refl (U : UnicodeTables) (s : List Nat) : equalFoldRunes U s s = true := by
  induction s with
  | nil => rfl
  | cons a s ih => simp [equalFoldRunes, equalFoldRune, ih]

theorem filterByCategory_eq (U : UnicodeTables) (todos : List Todo) (category : GoString) :
    filterByCategory U todos category
      = getInputPrompt (str "Enter the category to filter by:")
        ++ listTodos (todos.filter (fun t => EqualFold U t.Category category)) := by
  simp only [filterByCategory, foldl_append_if, List.nil_append, Bool.decide_eq_true]

theorem filterByCategory_congr (U : UnicodeTables) (c1 c2 : GoString)
    (h : ∀ cat, EqualFold U cat c1 = EqualFold U cat c2) (todos : List Todo) :
    filterByCategory U todos c1 = filterByCategory U todos c2 := by
  simp only [filterByCategory_eq, h]

/-! ## Case folding: the walk of `EqualFold` and the classes of letter case -/

theorem equalFoldRunes_iff (U : UnicodeTables) : ∀ s t : List Nat,
    equalFoldRunes U s t = true ↔ List.Forall₂ (fun a b => equalFoldRune U a b = true) s t := by
  intro s
  induction s with
  | nil =>
    intro t
    cases t with
    | nil => simp [equalFoldRunes]
    | cons b t => simp [equalFoldRunes]
  | cons a s ih =>
    intro t
    cases t with
    | nil => simp [equalFoldRunes]
    | cons b t => simp [equalFoldRunes, ih t]

theorem equalFoldRune_lt (U : UnicodeTables) (lo hi : Nat) (h : lo < hi) :
    equalFoldRune U lo hi
      = if hi < 0x80 then decide (0x41 ≤ lo ∧ lo ≤ 0x5A ∧ hi = lo + 0x20)
        else decide (foldWalk U lo hi 0x110000 (SimpleFold U lo) = hi) := by
  have e1 : ¬ (hi = lo) := by omega
  have e2 : ¬ (hi < lo) := by omega
  simp only [equalFoldRune, e1, e2, if_false]

theorem equalFoldRune_comm (U : UnicodeTables) (a b : Nat) :
    equalFoldRune U a b = equalFoldRune U b a := by
  rcases Nat.lt_trichotomy a b with h | h | h
  · have e1 : ¬ (b = a) := by omega
    have e2 : ¬ (a = b) := by omega
    have e3 : ¬ (b < a) := by omega
    simp only [equalFoldRune, e1, e2, e3, h, if_false, if_true]
  · subst h; rfl
  · have e1 : ¬ (b = a) := by omega
    have e2 : ¬ (a = b) := by omega
    have e3 : ¬ (a < b) := by omega
    simp only [equalFoldRune, e1, e2, e3, h, if_false, if_true]

theorem equalFoldRune_self (U : UnicodeTables) (a : Nat) : equalFoldRune U a a = true := by
  simp only [equalFoldRune, if_true]

/-- On ASCII, the comparison of `EqualFold` is equality up to the case of a
letter. -/
theorem equalFoldRune_ascii_iff (U : UnicodeTables) (a b : Nat) (ha : a < 0x80) (hb : b < 0x80) :
    equalFoldRune U a b = true ↔ specSameLetter a b := by
  unfold specSameLetter
  rcases Nat.lt_trichotomy a b with h | h | h
  · rw [equalFoldRune_lt U a b h, if_pos hb, decide_eq_true_eq]
    omega
  · subst h
    simp [equalFoldRune_self]
  · rw [equalFoldRune_comm, equalFoldRune_lt U b a h, if_pos ha, decide_eq_true_eq]
    omega

theorem equalFoldRunes_ascii_iff (U : UnicodeTables) : ∀ s t : List Nat,
    (∀ c ∈ s, c < 0x80) → (∀ c ∈ t, c < 0x80) →
    (equalFoldRunes U s t = true ↔ List.Forall₂ specSameLetter s t) := by
  intro s
  induction s with
  | nil =>
    intro t _ _
    cases t with
    | nil => simp [equalFoldRunes]
    | cons b t => simp [equalFoldRunes]
  | cons a s ih =>
    intro t hs ht
    cases t with
    | nil => simp [equalFoldRunes]
    | cons b t =>
      simp only [equalFoldRunes, Bool.and_eq_true, List.forall₂_cons]
      rw [equalFoldRune_ascii_iff U a b (hs a (List.mem_cons_self _ _))
          (ht b (List.mem_cons_self _ _)),
        ih t (fun c hc => hs c (List.mem_cons_of_mem _ hc))
          (fun c hc => ht c (List.mem_cons_of_mem _ hc))]

/-- On ASCII strings, `EqualFold` is equality up to the case of letters, whatever
the tables of Unicode are. -/
theorem equalFold_ascii_iff (U : UnicodeTables) (s t : GoString) (hs : ∀ c ∈ s, c < 0x80)
    (ht : ∀ c ∈ t, c < 0x80) : EqualFold U s t = true ↔ specDifferOnlyInCase s t := by
  unfold EqualFold specDifferOnlyInCase
  rw [runes_ascii s hs, runes_ascii t ht]
  exact equalFoldRunes_ascii_iff U s t hs ht

theorem specCaseStep_simpleFold (U : UnicodeTables) (a b : Nat) (h : specCaseStep U a b) :
    SimpleFold U a = b := by
  rcases h with ⟨h1, h2, rfl⟩ | ⟨rfl, rfl⟩ | ⟨rfl, rfl⟩ | ⟨h1, h2, rfl⟩
  · exact simpleFold_upper U a ⟨h1, h2⟩
  · rfl
  · rfl
  · have e1 : ¬ (a > 0x10FFFF) := by omega
    have e2 : ¬ (a < 0x80) := by omega
    simp only [SimpleFold, e1, e2, if_false]

/-- A rune and the next of its orbit are the same with letter case ignored. -/
theorem simpleFold_variant (U : UnicodeTables) (a : Nat) :
    specCaseVariant U a (SimpleFold U a) := by
  unfold specCaseVariant
  by_cases h1 : a > 0x10FFFF
  · simp only [SimpleFold, h1, if_true]
    exact Relation.EqvGen.refl _
  · by_cases h2 : a < 0x80
    · simp only [SimpleFold, h1, h2, if_true, if_false, asciiFold]
      split_ifs with c1 c2 c3 c4
      · exact Relation.EqvGen.rel _ _ (Or.inl ⟨c1.1, c1.2, rfl⟩)
      · exact Relation.EqvGen.rel _ _ (Or.inr (Or.inl ⟨c2, rfl⟩))
      · exact Relation.EqvGen.rel _ _ (Or.inr (Or.inr (Or.inl ⟨c3, rfl⟩)))
      · apply Relation.EqvGen.symm
        exact Relation.EqvGen.rel _ _ (Or.inl ⟨by omega, by omega, by omega⟩)
      · exact Relation.EqvGen.refl _
    · simp only [SimpleFold, h1, h2, if_false]
      exact Relation.EqvGen.rel _ _ (Or.inr (Or.inr (Or.inr ⟨by omega, by omega, rfl⟩)))

theorem iterate_variant (U : UnicodeTables) : ∀ (k a : Nat),
    specCaseVariant U a ((SimpleFold U)^[k] a) := by
  intro k
  induction k with
  | zero => intro a; exact Relation.EqvGen.refl _
  | succ k ih =>
    intro a
    rw [Function.iterate_succ_apply]
    exact Relation.EqvGen.trans _ _ _ (simpleFold_variant U a) (ih _)

theorem foldWalk_iterate (U : UnicodeTables) (sr tr : Nat) : ∀ (fuel r : Nat),
    ∃ k, foldWalk U sr tr fuel r = (SimpleFold U)^[k] r := by
  intro fuel
  induction fuel with
  | zero => intro r; exact ⟨0, rfl⟩
  | succ n ih =>
    intro r
    rw [foldWalk_succ]
    split_ifs with h
    · obtain ⟨k, hk⟩ := ih (SimpleFold U r)
      exact ⟨k + 1, by rw [hk, Function.iterate_succ_apply]⟩
    · exact ⟨0, rfl⟩

/-- Two runes that `EqualFold` takes for equal are the same with letter case
ignored. -/
theorem equalFoldRune_sound (U : UnicodeTables) (a b : Nat) (h : equalFoldRune U a b = true) :
    specCaseVariant U a b := by
  have key : ∀ lo hi, lo < hi → equalFoldRune U lo hi = true → specCaseVariant U lo hi := by
    intro lo hi hlt h
    rw [equalFoldRune_lt U lo hi hlt] at h
    split_ifs at h with c
    · simp only [decide_eq_true_eq] at h
      exact Relation.EqvGen.rel _ _ (Or.inl h)
    · simp only [decide_eq_true_eq] at h
      obtain ⟨k, hk⟩ := foldWalk_iterate U lo hi 0x110000 (SimpleFold U lo)
      rw [h] at hk
      rw [hk]
      exact Relation.EqvGen.trans _ _ _ (simpleFold_variant U lo) (iterate_variant U k _)
  rcases Nat.lt_trichotomy a b with hlt | heq | hgt
  · exact key a b hlt h
  · subst heq; exact Relation.EqvGen.refl _
  · rw [equalFoldRune_comm] at h
    exact Relation.EqvGen.symm _ _ (key b a hgt h)

/-- With orbits that close, two runes that are the same with letter case ignored
lie on one orbit. -/
theorem specCaseVariant_orbit (U : UnicodeTables)
    (hcyc : ∀ a b k, (SimpleFold U)^[k] a = b → ∃ j, (SimpleFold U)^[j] b = a)
    (a b : Nat) (h : specCaseVariant U a b) : ∃ k, (SimpleFold U)^[k] a = b := by
  unfold specCaseVariant at h
  induction h with
  | rel x y hxy => exact ⟨1, specCaseStep_simpleFold U x y hxy⟩
  | refl x => exact ⟨0, rfl⟩
  | symm x y _ ih =>
    obtain ⟨k, hk⟩ := ih
    exact hcyc x y k hk
  | trans x y z _ _ ih1 ih2 =>
    obtain ⟨k1, h1⟩ := ih1
    obtain ⟨k2, h2⟩ := ih2
    exact ⟨k2 + k1, by rw [Function.iterate_add_apply, h1, h2]⟩

/-- With orbits that go upwards, the walk of `EqualFold` from a rune of the
orbit below `hi` arrives at `hi`. -/
theorem foldWalk_reaches (U : UnicodeTables)
    (hmono : ∀ r h k, r < h → (SimpleFold U)^[k] r = h → r < SimpleFold U r ∧ SimpleFold U r ≤ h)
    (lo hi : Nat) : ∀ (fuel r k : Nat), lo < r → r ≤ hi → (SimpleFold U)^[k] r = hi →
      hi - r < fuel → foldWalk U lo hi fuel r = hi := by
  intro fuel
  induction fuel with
  | zero => intro r k _ _ _ hf; omega
  | succ n ih =>
    intro r k hlo hhi hk hf
    rw [foldWalk_succ]
    by_cases hr : r = hi
    · have : ¬ (r ≠ lo ∧ r < hi) := by omega
      rw [if_neg this, hr]
    · have hlt : r < hi := by omega
      have : r ≠ lo ∧ r < hi := ⟨by omega, hlt⟩
      rw [if_pos this]
      cases k with
      | zero => exact absurd hk hr
      | succ k =>
        obtain ⟨m1, m2⟩ := hmono r hi (k + 1) hlt hk
        rw [Function.iterate_succ_apply] at hk
        exact ih (SimpleFold U r) k (by omega) m2 hk (by omega)

theorem equalFoldRune_complete_lt (U : UnicodeTables)
    (hmono : ∀ r h k, r < h → (SimpleFold U)^[k] r = h → r < SimpleFold U r ∧ SimpleFold U r ≤ h)
    (lo hi k : Nat) (hlt : lo < hi) (hhi : hi ≤ 0x10FFFF) (hk : (SimpleFold U)^[k] lo = hi) :
    equalFoldRune U lo hi = true := by
  rw [equalFoldRune_lt U lo hi hlt]
  cases k with
  | zero =>
    exfalso
    simp only [Function.iterate_zero, id_eq] at hk
    omega
  | succ k =>
    obtain ⟨m1, m2⟩ := hmono lo hi (k + 1) hlt hk
    rw [Function.iterate_succ_apply] at hk
    split_ifs with c
    · rw [decide_eq_true_eq]
      have hup : 0x41 ≤ lo ∧ lo ≤ 0x5A := by
        have e1 : ¬ (lo > 0x10FFFF) := by omega
        have e2 : lo < 0x80 := by omega
        simp only [SimpleFold, e1, e2, if_true, if_false, asciiFold] at m1 m2
        split_ifs at m1 m2 <;> omega
      have hsf := simpleFold_upper U lo hup
      rw [hsf] at hk m2
      refine ⟨hup.1, hup.2, ?_⟩
      by_contra hne
      have hlt2 : lo + 0x20 < hi := by omega
      cases k with
      | zero =>
        simp only [Function.iterate_zero, id_eq] at hk
        omega
      | succ k =>
        obtain ⟨n1, n2⟩ := hmono (lo + 0x20) hi (k + 1) hlt2 hk
        have e1 : ¬ (lo + 0x20 > 0x10FFFF) := by omega
        have e2 : lo + 0x20 < 0x80 := by omega
        simp only [SimpleFold, e1, e2, if_true, if_false, asciiFold] at n1 n2
        split_ifs at n1 n2 <;> omega
    · rw [decide_eq_true_eq]
      exact foldWalk_reaches U hmono lo hi 0x110000 (SimpleFold U lo) k m1 m2 hk (by omega)

/-- With orbits that close and go upwards, `EqualFold` takes two runes that are
the same with letter case ignored for equal. -/
theorem equalFoldRune_complete (U : UnicodeTables)
    (hcyc : ∀ a b k, (SimpleFold U)^[k] a = b → ∃ j, (SimpleFold U)^[j] b = a)
    (hmono : ∀ r h k, r < h → (SimpleFold U)^[k] r = h → r < SimpleFold U r ∧ SimpleFold U r ≤ h)
    (a b : Nat) (ha : a ≤ 0x10FFFF) (hb : b ≤ 0x10FFFF) (h : specCaseVariant U a b) :
    equalFoldRune U a b = true := by
  obtain ⟨k, hk⟩ := specCaseVariant_orbit U hcyc a b h
  rcases Nat.lt_trichotomy a b with hlt | heq | hgt
  · exact equalFoldRune_complete_lt U hmono a b k hlt hb hk
  · subst heq; exact equalFoldRune_self U a
  · obtain ⟨j, hj⟩ := hcyc a b k hk
    rw [equalFoldRune_comm]
    exact equalFoldRune_complete_lt U hmono b a j hgt ha hj

theorem validRune_le (c : Nat) (h : validRune c = true) : c ≤ 0x10FFFF := by
  simp only [validRune, decide_eq_true_eq] at h
  exact h.1

theorem forall₂_sound (U : UnicodeTables) (cs ct : List Nat)
    (h : List.Forall₂ (fun a b => equalFoldRune U a b = true) cs ct) :
    List.Forall₂ (specCaseVariant U) cs ct :=
  List.Forall₂.imp (fun a b hab => equalFoldRune_sound U a b hab) h

theorem forall₂_complete (U : UnicodeTables)
    (hcyc : ∀ a b k, (SimpleFold U)^[k] a = b → ∃ j, (SimpleFold U)^[j] b = a)
    (hmono : ∀ r h k, r < h → (SimpleFold U)^[k] r = h → r < SimpleFold U r ∧ SimpleFold U r ≤ h)
    (cs ct : List Nat) (h : List.Forall₂ (specCaseVariant U) cs ct) :
    (∀ c ∈ cs, validRune c = true) → (∀ c ∈ ct, validRune c = true) →
    List.Forall₂ (fun a b => equalFoldRune U a b = true) cs ct := by
  induction h with
  | nil => intro _ _; exact List.Forall₂.nil
  | cons hab _ ih =>
    intro hs ht
    refine List.Forall₂.cons ?_ (ih (fun c hc => hs c (List.mem_cons_of_mem _ hc))
      (fun c hc => ht c (List.mem_cons_of_mem _ hc)))
    exact equalFoldRune_complete U hcyc hmono _ _
      (validRune_le _ (hs _ (List.mem_cons_self _ _)))
      (validRune_le _ (ht _ (List.mem_cons_self _ _))) hab

/-- On valid UTF-8, with orbits that close and go upwards, `EqualFold` is
equality of the whole strings with letter case ignored. -/
theorem equalFold_iff (U : UnicodeTables)
    (hcyc : ∀ a b k, (SimpleFold U)^[k] a = b → ∃ j, (SimpleFold U)^[j] b = a)
    (hmono : ∀ r h k, r < h → (SimpleFold U)^[k] r = h → r < SimpleFold U r ∧ SimpleFold U r ≤ h)
    (s t : GoString) (hs : validString s = true) (ht : validString t = true) :
    EqualFold U s t = true ↔ specEqualIgnoringCase U s t := by
  obtain ⟨es, vs⟩ := encodeAll_runes s hs
  obtain ⟨et, vt⟩ := encodeAll_runes t ht
  unfold EqualFold
  rw [equalFoldRunes_iff]
  constructor
  · intro h
    exact ⟨runes s, runes t, vs, vt, es.symm, et.symm, forall₂_sound U _ _ h⟩
  · rintro ⟨cs, ct, hcs, hct, e1, e2, h⟩
    rw [e1, e2, runes_encodeAll cs hcs, runes_encodeAll ct hct]
    exact forall₂_complete U hcyc hmono cs ct h hcs hct

theorem forall₂_variant_symm (U : UnicodeTables) (cs ct : List Nat)
    (h : List.Forall₂ (specCaseVariant U) cs ct) : List.Forall₂ (specCaseVariant U) ct cs := by
  induction h with
  | nil => exact List.Forall₂.nil
  | cons hab _ ih => exact List.Forall₂.cons (Relation.EqvGen.symm _ _ hab) ih

theorem forall₂_variant_trans (U : UnicodeTables) (cs ct : List Nat)
    (h : List.Forall₂ (specCaseVariant U) cs ct) : ∀ cu, List.Forall₂ (specCaseVariant U) ct cu →
    List.Forall₂ (specCaseVariant U) cs cu := by
  induction h with
  | nil => intro cu h2; exact h2
  | cons hab _ ih =>
    intro cu h2
    cases h2 with
    | cons hbc h3 => exact List.Forall₂.cons (Relation.EqvGen.trans _ _ _ hab hbc) (ih _ h3)

theorem specEqualIgnoringCase_symm (U : UnicodeTables) (s t : GoString)
    (h : specEqualIgnoringCase U s t) : specEqualIgnoringCase U t s := by
  obtain ⟨cs, ct, hcs, hct, e1, e2, h⟩ := h
  exact ⟨ct, cs, hct, hcs, e2, e1, forall₂_variant_symm U cs ct h⟩

theorem specEqualIgnoringCase_trans (U : UnicodeTables) (s t u : GoString)
    (h1 : specEqualIgnoringCase U s t) (h2 : specEqualIgnoringCase U t u) :
    specEqualIgnoringCase U s u := by
  obtain ⟨cs, ct, hcs, hct, e1, e2, h⟩ := h1
  obtain ⟨ct2, cu, hct2, hcu, e3, e4, h3⟩ := h2
  have : ct2 = ct := by
    have := congrArg runes (e3.symm.trans e2)
    rwa [runes_encodeAll ct2 hct2, runes_encodeAll ct hct] at this
  subst this
  exact ⟨cs, cu, hcs, hcu, e1, e4, forall₂_variant_trans U cs ct2 h cu h3⟩

theorem specEqualIgnoringCase_valid (U : UnicodeTables) (s t : GoString)
    (h : specEqualIgnoringCase U s t) : validString s = true ∧ validString t = true := by
  obtain ⟨cs, ct, hcs, hct, e1, e2, _⟩ := h
  rw [e1, e2]
  exact ⟨validString_encodeAll cs hcs, validString_encodeAll ct hct⟩

/-! ### The sample tables -/

theorem sample_fixed (r : Nat) (h1 : 0x80 ≤ r) (h2 : r ≠ 0x212A) (h3 : r ≠ 0x17F) :
    SimpleFold sampleTables r = r := by
  have e : ¬ (r < 0x80) := by omega
  simp only [SimpleFold, sampleTables, e, h2, h3, if_false, ite_self]

theorem sample_six (r : Nat) : (SimpleFold sampleTables)^[6] r = r := by
  by_cases h : r < 0x80
  · have : ∀ x, x < 0x80 → (SimpleFold sampleTables)^[6] x = x := by decide
    exact this r h
  · by_cases h2 : r = 0x212A
    · subst h2; rfl
    · by_cases h3 : r = 0x17F
      · subst h3; rfl
      · exact Function.iterate_fixed (sample_fixed r (by omega) h2 h3) 6

theorem sample_hcyc (a b k : Nat) (h : (SimpleFold sampleTables)^[k] a = b) :
    ∃ j, (SimpleFold sampleTables)^[j] b = a := by
  refine ⟨5 * k, ?_⟩
  rw [← h, ← Function.iterate_add_apply]
  have : 5 * k + k = 6 * k := by ring
  rw [this, Function.iterate_mul]
  exact Function.iterate_fixed (sample_six a) k

theorem sample_mod (r k : Nat) :
    (SimpleFold sampleTables)^[k] r = (SimpleFold sampleTables)^[k % 6] r := by
  conv_lhs => rw [← Nat.mod_add_div k 6]
  rw [Function.iterate_add_apply, Function.iterate_mul]
  rw [Function.iterate_fixed (sample_six r) (k / 6)]

theorem sample_hmono (r h k : Nat) (hlt : r < h) (hk : (SimpleFold sampleTables)^[k] r = h) :
    r < SimpleFold sampleTables r ∧ SimpleFold sampleTables r ≤ h := by
  rw [sample_mod] at hk
  have hi : k % 6 < 6 := Nat.mod_lt _ (by decide)
  subst hk
  by_cases h1 : r < 0x80
  · have : ∀ x, x < 0x80 → ∀ i, i < 6 → x < (SimpleFold sampleTables)^[i] x →
        x < SimpleFold sampleTables x ∧ SimpleFold sampleTables x ≤ (SimpleFold sampleTables)^[i] x := by
      decide
    exact this r h1 _ hi hlt
  · by_cases h2 : r = 0x212A
    · subst h2
      have : ∀ i, i < 6 → 0x212A < (SimpleFold sampleTables)^[i] 0x212A →
          0x212A < SimpleFold sampleTables 0x212A
            ∧ SimpleFold sampleTables 0x212A ≤ (SimpleFold sampleTables)^[i] 0x212A := by
        decide
      exact this _ hi hlt
    · by_cases h3 : r = 0x17F
      · subst h3
        have : ∀ i, i < 6 → 0x17F < (SimpleFold sampleTables)^[i] 0x17F →
            0x17F < SimpleFold sampleTables 0x17F
              ∧ SimpleFold sampleTables 0x17F ≤ (SimpleFold sampleTables)^[i] 0x17F := by
          decide
        exact this _ hi hlt
      · rw [Function.iterate_fixed (sample_fixed r (by omega) h2 h3)] at hlt
        omega

/-! ## Filter by category: the claim -/

/-- C5, for valid UTF-8: `filterByCategory` lists, in store order, exactly the
records whose category is equal to the string entered with letter case ignored,
whole string against whole string. For ASCII strings this holds whatever the
tables of Unicode are: the records listed are those whose category differs from
the string entered at most in the case of letters. For valid UTF-8 strings it
holds character by character, with the classes of letter case that the simple
case folding of the tables generates, given that `SimpleFold` runs through each
class in a cycle, upwards until it wraps around. `EqualFold` itself matches
equal strings and never strings of different length in runes. Hence `Work` and
`work` give the same listing, as do any two strings that differ only in the
case of ASCII letters (given the two table entries that close the orbits of `k`
and `s`) and any two valid UTF-8 strings that are equal with letter case
ignored; on a store whose records all have category `Work` the filter `Wor`
lists nothing, and on a store with the categories `Work` and `Home` the filter
`work` lists the first record only, as does the filter `KELVIN` on a store with
the categories `Kelvin`, written with the Kelvin sign U+212A, and `Melvin`. -/
theorem filterByCategory_spec (U : UnicodeTables) :
    (∀ (todos : List Todo) (category : GoString),
      filterByCategory U todos category
        = getInputPrompt (str "Enter the category to filter by:")
          ++ listTodos (todos.filter (fun t => EqualFold U t.Category category)))
    ∧ (∀ s : GoString, EqualFold U s s = true)
    ∧ (∀ s t : GoString, EqualFold U s t = true → (runes s).length = (runes t).length)
    ∧ (∀ (todos : List Todo) (category : GoString), (∀ c ∈ category, c < 0x80) →
        (∀ t ∈ todos, ∀ c ∈ t.Category, c < 0x80) →
        filterByCategory U todos category
          = getInputPrompt (str "Enter the category to filter by:")
            ++ listTodos (todos.filter
                (fun t => decide (specDifferOnlyInCase t.Category category))))
    ∧ ((∀ a b k, (SimpleFold U)^[k] a = b → ∃ j, (SimpleFold U)^[j] b = a) →
        (∀ r h k, r < h → (SimpleFold U)^[k] r = h →
          r < SimpleFold U r ∧ SimpleFold U r ≤ h) →
        ∀ (todos : List Todo) (category : GoString), validString category = true →
          (∀ t ∈ todos, validString t.Category = true) →
          ∃ shown : Todo → Bool,
            (∀ t ∈ todos, shown t = true ↔ specEqualIgnoringCase U t.Category category)
            ∧ filterByCategory U todos category
              = getInputPrompt (str "Enter the category to filter by:")
                ++ listTodos (todos.filter shown))
    ∧ (∀ todos : List Todo,
        filterByCategory U todos (str "Work") = filterByCategory U todos (str "work"))
    ∧ specDifferOnlyInCase (str "Work") (str "work")
    ∧ (U.simpleFold 0x212A = 0x4B → U.simpleFold 0x17F = 0x53 →
        ∀ c1 c2 : GoString, specDifferOnlyInCase c1 c2 →
          ∀ todos : List Todo, filterByCategory U todos c1 = filterByCategory U todos c2)
    ∧ ((∀ a b k, (SimpleFold U)^[k] a = b → ∃ j, (SimpleFold U)^[j] b = a) →
        (∀ r h k, r < h → (SimpleFold U)^[k] r = h →
          r < SimpleFold U r ∧ SimpleFold U r ≤ h) →
        ∀ c1 c2 : GoString, specEqualIgnoringCase U c1 c2 →
          ∀ todos : List Todo, (∀ t ∈ todos, validString t.Category = true) →
            filterByCategory U todos c1 = filterByCategory U todos c2)
    ∧ (∀ todos : List Todo, (∀ t ∈ todos, t.Category = str "Work") →
        filterByCategory U todos (str "Wor")
          = getInputPrompt (str "Enter the category to filter by:")
            ++ println (str "📭 No to-dos found!"))
    ∧ (∀ t1 d1 p1 t2 d2 p2,
        filterByCategory U [⟨t1, d1, str "Work", p1⟩, ⟨t2, d2, str "Home", p2⟩] (str "work")
          = getInputPrompt (str "Enter the category to filter by:")
            ++ listTodos [⟨t1, d1, str "Work", p1⟩])
    ∧ (∀ t1 d1 p1 t2 d2 p2,
        filterByCategory U [⟨t1, d1, [0xE2, 0x84, 0xAA] ++ str "elvin", p1⟩,
            ⟨t2, d2, str "Melvin", p2⟩] (str "KELVIN")
          = getInputPrompt (str "Enter the category to filter by:")
            ++ listTodos [⟨t1, d1, [0xE2, 0x84, 0xAA] ++ str "elvin", p1⟩]) := by
  refine ⟨filterByCategory_eq U, ?_, ?_, ?_, ?_, ?_, ?_, ?_, ?_, ?_, ?_, ?_⟩
  · intro s
    exact equalFoldRunes_refl U (runes s)
  · intro s t h
    exact equalFoldRunes_length U (runes s) (runes t) h
  · intro todos category hc ht
    rw [filterByCategory_eq]
    congr 2
    apply List.filter_congr
    intro t htm
    rw [Bool.eq_iff_iff, decide_eq_true_eq]
    exact equalFold_ascii_iff U t.Category category (ht t htm) hc
  · intro hcyc hmono todos category hc ht
    refine ⟨fun t => EqualFold U t.Category category, ?_, filterByCategory_eq U _ _⟩
    intro t htm
    exact equalFold_iff U hcyc hmono t.Category category (ht t htm) hc
  · intro todos
    apply filterByCategory_congr
    intro cat
    have h1 : runes (str "Work") = [0x57, 0x6F, 0x72, 0x6B] := rfl
    have h2 : runes (str "work") = [0x57 + 0x20, 0x6F, 0x72, 0x6B] := rfl
    simp only [EqualFold, h1, h2]
    cases runes cat with
    | nil => rfl
    | cons x xs =>
      simp only [equalFoldRunes]
      rw [equalFoldRune_pair U x 0x57 (by decide) (by decide) (by decide)]
  · decide
  · intro hK hS c1 c2 h todos
    apply filterByCategory_congr
    intro cat
    exact equalFoldRunes_congr U hK hS (runes c1) (runes c2) (runes_congr c1 c2 h) (runes cat)
  · intro hcyc hmono c1 c2 h todos ht
    obtain ⟨v1, v2⟩ := specEqualIgnoringCase_valid U c1 c2 h
    rw [filterByCategory_eq, filterByCategory_eq]
    congr 2
    apply List.filter_congr
    intro t htm
    rw [Bool.eq_iff_iff, equalFold_iff U hcyc hmono _ _ (ht t htm) v1,
      equalFold_iff U hcyc hmono _ _ (ht t htm) v2]
    constructor
    · intro h1
      exact specEqualIgnoringCase_trans U _ _ _ h1 h
    · intro h2
      exact specEqualIgnoringCase_trans U _ _ _ h2 (specEqualIgnoringCase_symm U _ _ h)
  · intro todos hall
    rw [filterByCategory_eq]
    have hf : todos.filter (fun t => EqualFold U t.Category (str "Wor")) = [] := by
      rw [List.filter_eq_nil_iff]
      intro t ht
      rw [hall t ht]
      have : EqualFold U (str "Work") (str "Wor") = false := rfl
      simp [this]
    rw [hf]
    rfl
  · intro t1 d1 p1 t2 d2 p2
    rw [filterByCategory_eq]
    rfl
  · intro t1 d1 p1 t2 d2 p2
    rw [filterByCategory_eq]
    rfl

/-- Witness of C5, with the sample tables: the filter `ASK` on a store with the
categories `Ask` and `Home`; the filter `kelvin` on a store with the category
`Kelvin` written with the Kelvin sign U+212A; the filters `ASK` and `ask`, and
the filters `k` and the Kelvin sign; the filter `Wor` on a store of `Work`
records. -/
theorem filterByCategory_spec_witness :
    filterByCategory sampleTables [⟨str "a", false, str "Ask", str "Low"⟩,
        ⟨str "b", true, str "Home", str "High"⟩] (str "ASK")
      = getInputPrompt (str "Enter the category to filter by:")
        ++ listTodos ([(⟨str "a", false, str "Ask", str "Low"⟩ : Todo),
            ⟨str "b", true, str "Home", str "High"⟩].filter
            (fun t => decide (specDifferOnlyInCase t.Category (str "ASK"))))
    ∧ (∃ shown : Todo → Bool,
        (∀ t ∈ [(⟨str "a", false, [0xE2, 0x84, 0xAA] ++ str "elvin", str "Low"⟩ : Todo),
            ⟨str "b", true, str "Home", str "High"⟩],
          shown t = true ↔ specEqualIgnoringCase sampleTables t.Category (str "kelvin"))
        ∧ filterByCategory sampleTables
            [⟨str "a", false, [0xE2, 0x84, 0xAA] ++ str "elvin", str "Low"⟩,
              ⟨str "b", true, str "Home", str "High"⟩] (str "kelvin")
          = getInputPrompt (str "Enter the category to filter by:")
            ++ listTodos ([(⟨str "a", false, [0xE2, 0x84, 0xAA] ++ str "elvin", str "Low"⟩ : Todo),
              ⟨str "b", true, str "Home", str "High"⟩].filter shown))
    ∧ filterByCategory sampleTables [⟨str "a", false, str "Ask", str "Low"⟩,
        ⟨str "b", true, str "Home", str "High"⟩] (str "ASK")
      = filterByCategory sampleTables [⟨str "a", false, str "Ask", str "Low"⟩,
        ⟨str "b", true, str "Home", str "High"⟩] (str "ask")
    ∧ filterByCategory sampleTables [⟨str "a", false, str "K", str "Low"⟩,
        ⟨str "b", true, str "Home", str "High"⟩] (str "k")
      = filterByCategory sampleTables [⟨str "a", false, str "K", str "Low"⟩,
        ⟨str "b", true, str "Home", str "High"⟩] [0xE2, 0x84, 0xAA]
    ∧ filterByCategory sampleTables [⟨str "a", false, str "Work", str "Low"⟩,
        ⟨str "b", true, str "Work", str "High"⟩] (str "Wor")
      = getInputPrompt (str "Enter the category to filter by:")
        ++ println (str "📭 No to-dos found!")
    ∧ filterByCategory sampleTables [⟨str "a", false, str "Ask", str "Low"⟩,
        ⟨str "b", true, str "Home", str "High"⟩] (str "ASK")
      = getInputPrompt (str "Enter the category to filter by:")
        ++ listTodos [⟨str "a", false, str "Ask", str "Low"⟩]
    ∧ filterByCategory sampleTables
        [⟨str "a", false, [0xE2, 0x84, 0xAA] ++ str "elvin", str "Low"⟩,
          ⟨str "b", true, str "Home", str "High"⟩] (str "kelvin")
      = getInputPrompt (str "Enter the category to filter by:")
        ++ listTodos [⟨str "a", false, [0xE2, 0x84, 0xAA] ++ str "elvin", str "Low"⟩]
    ∧ (runes (str "Ask")).length = (runes (str "ASK")).length :=
  ⟨(filterByCategory_spec sampleTables).2.2.2.1 _ (str "ASK") (by decide) (by decide),
    (filterByCategory_spec sampleTables).2.2.2.2.1 sample_hcyc sample_hmono _ (str "kelvin")
      (by decide) (by decide),
    (filterByCategory_spec sampleTables).2.2.2.2.2.2.2.1 rfl rfl (str "ASK") (str "ask")
      (by decide) _,
    (filterByCategory_spec sampleTables).2.2.2.2.2.2.2.2.1 sample_hcyc sample_hmono
      (str "k") [0xE2, 0x84, 0xAA]
      ⟨[0x6B], [0x212A], by decide, by decide, rfl, rfl,
        List.Forall₂.cons (Relation.EqvGen.rel _ _ (Or.inr (Or.inl ⟨rfl, rfl⟩))) List.Forall₂.nil⟩
      _ (by decide),
    (filterByCategory_spec sampleTables).2.2.2.2.2.2.2.2.2.1 _ (by decide),
    by decide, by decide,
    (filterByCategory_spec sampleTables).2.2.1 (str "Ask") (str "ASK") (by decide)⟩

/-- Counterexample to C5 as stated: the bytes `0xFF` and `0xFE` are not valid
UTF-8, and `EqualFold` reads each as the rune U+FFFD. On a store with one
record of category `0xFF` the filter `0xFE` lists that record, though the two
strings are different, do not differ in the case of a letter, and are the text
of no characters at all. -/
theorem filterByCategory_invalid_utf8 :
    filterByCategory sampleTables [⟨str "a", false, [0xFF], str "Low"⟩] [0xFE]
      = getInputPrompt (str "Enter the category to filter by:")
        ++ listTodos [⟨str "a", false, [0xFF], str "Low"⟩]
    ∧ listTodos [⟨str "a", false, [0xFF], str "Low"⟩]
      = println (str "\n📌 Your To-Do List:")
        ++ str "1. [Not Done] a (Category: " ++ [0xFF] ++ str ", Priority: Low)\n"
    ∧ ([0xFF] : GoString) ≠ [0xFE]
    ∧ ¬ specDifferOnlyInCase [0xFF] [0xFE]
    ∧ ¬ specEqualIgnoringCase sampleTables [0xFF] [0xFE]
    ∧ validString [0xFF] = false ∧ validString [0xFE] = false := by
  refine ⟨by decide, by decide, by decide, by decide, ?_, by decide, by decide⟩
  intro h
  have := (specEqualIgnoringCase_valid sampleTables _ _ h).1
  revert this
  decide

/-! ## JSON strings: `unquote` after `appendString` -/

theorem unquoteLoop_quote (fuel : Nat) (X : GoString) :
    unquoteLoop (fuel + 1) (0x22 :: X) = some ([], X) := rfl

theorem unquoteLoop_ascii (go122 : Bool) (b : Nat) (hb : b < 0x80) (n fuel : Nat) (t X : GoString) :
    unquoteLoop (fuel + 1) (appendStringLoop go122 (n + 1) (b :: t) ++ X)
      = prepend [b] (unquoteLoop fuel (appendStringLoop go122 n t ++ X)) := by
  cases go122 <;> interval_cases b <;> rfl

theorem appendStringLoop_ascii_length (go122 : Bool) (b : Nat) (hb : b < 0x80) (n : Nat) (t : GoString) :
    (appendStringLoop go122 n t).length < (appendStringLoop go122 (n + 1) (b :: t)).length := by
  simp only [appendStringLoop, hb, if_true, List.length_append]
  split_ifs <;> simp

theorem unquoteLoop_high (b : Nat) (hb : 0x80 ≤ b) (fuel : Nat) (S : GoString) :
    unquoteLoop (fuel + 1) (b :: S)
      = prepend (encodeRune (decodeRune (b :: S)).1)
          (unquoteLoop fuel ((b :: S).drop (decodeRune (b :: S)).2)) := by
  have h1 : ¬ (b = 0x5C) := by omega
  have h2 : ¬ (b = 0x22) := by omega
  have h3 : ¬ (b < 0x20) := by omega
  have h4 : ¬ (b < 0x80) := by omega
  simp only [unquoteLoop, h1, h2, h3, h4, if_false]

theorem unquoteLoop_appendStringLoop (go122 : Bool) : ∀ (n : Nat) (s : GoString), s.length ≤ n →
    validLoop n s = true → ∀ (fuel : Nat) (X : GoString), (appendStringLoop go122 n s).length < fuel →
      unquoteLoop fuel (appendStringLoop go122 n s ++ 0x22 :: X) = some (s, X) := by
  intro n
  induction n with
  | zero =>
    intro s hs _ fuel X hf
    have : s = [] := List.eq_nil_of_length_eq_zero (by omega)
    subst this
    obtain ⟨f, rfl⟩ : ∃ f, fuel = f + 1 := ⟨fuel - 1, by omega⟩
    rfl
  | succ n ih =>
    intro s hs hv fuel X hf
    obtain ⟨f, rfl⟩ : ∃ f, fuel = f + 1 := ⟨fuel - 1, by omega⟩
    cases s with
    | nil => rfl
    | cons b t =>
      by_cases hb : b < 0x80
      · rw [unquoteLoop_ascii go122 b hb]
        have hv1 : validLoop n t = true := by
          have hne : ¬ (b = RuneError) := by simp only [RuneError]; omega
          simpa [validLoop, decodeRune_ascii b t hb, hne] using hv
        have hl := appendStringLoop_ascii_length go122 b hb n t
        rw [ih t (by simpa using hs) hv1 f X (by omega)]
        rfl
      · have hb1 : 0x80 ≤ b := by omega
        simp only [validLoop, Bool.ite_eq_true_distrib, Bool.false_eq_true, if_false_left] at hv
        obtain ⟨hv0, hv1⟩ := hv
        obtain ⟨pre, post, hsplit, hlen, henc, hdec⟩ := decodeRune_valid b t hb1 hv0
        have hpos := decodeRune_size_pos b t
        have htake : (b :: t).take (decodeRune (b :: t)).2 = pre := by
          rw [← hlen, hsplit, List.take_left]
        have hdrop : (b :: t).drop (decodeRune (b :: t)).2 = post := by
          rw [← hlen, hsplit, List.drop_left]
        rw [hdrop] at hv1
        have hpl : post.length ≤ n := by
          have : (b :: t).length = pre.length + post.length := by rw [hsplit, List.length_append]
          simp only [List.length_cons] at hs this
          omega
        have hstep : appendStringLoop go122 (n + 1) (b :: t)
            = (if (decodeRune (b :: t)).1 = 0x2028 ∨ (decodeRune (b :: t)).1 = 0x2029 then
                [0x5C, 0x75, 0x32, 0x30, 0x32, hexDigit ((decodeRune (b :: t)).1 % 16)]
               else pre) ++ appendStringLoop go122 n post := by
          simp only [appendStringLoop, hb, hv0, if_false, htake, hdrop]
          split_ifs <;> rfl
        rw [hstep] at hf ⊢
        by_cases hsp : (decodeRune (b :: t)).1 = 0x2028 ∨ (decodeRune (b :: t)).1 = 0x2029
        · simp only [hsp, if_true, List.length_append, List.length_cons, List.length_nil] at hf ⊢
          have hrec := ih post hpl hv1 f X (by omega)
          rcases hsp with h | h
          · rw [h] at henc ⊢
            have : unquoteLoop (f + 1) ([0x5C, 0x75, 0x32, 0x30, 0x32, hexDigit (0x2028 % 16)]
                ++ appendStringLoop go122 n post ++ 0x22 :: X)
                = prepend (encodeRune 0x2028) (unquoteLoop f (appendStringLoop go122 n post ++ 0x22 :: X)) := rfl
            rw [this, hrec, henc]
            simp only [prepend, hsplit]
          · rw [h] at henc ⊢
            have : unquoteLoop (f + 1) ([0x5C, 0x75, 0x32, 0x30, 0x32, hexDigit (0x2029 % 16)]
                ++ appendStringLoop go122 n post ++ 0x22 :: X)
                = prepend (encodeRune 0x2029) (unquoteLoop f (appendStringLoop go122 n post ++ 0x22 :: X)) := rfl
            rw [this, hrec, henc]
            simp only [prepend, hsplit]
        · simp only [hsp, if_false, List.length_append] at hf ⊢
          have hrec := ih post hpl hv1 f X (by omega)
          obtain ⟨p0, ptail, rfl⟩ : ∃ p0 ptail, pre = p0 :: ptail := by
            cases pre with
            | nil => simp at hlen; omega
            | cons x xs => exact ⟨x, xs, rfl⟩
          have hp0 : p0 = b := by
            simp only [List.cons_append, List.cons.injEq] at hsplit
            exact hsplit.1.symm
          subst hp0
          rw [List.append_assoc, List.cons_append, unquoteLoop_high p0 hb1, ← List.cons_append,
            hdec, henc, ← hlen, List.drop_left, hrec]
          simp only [prepend, hsplit]

theorem decodeString_appendString (go122 : Bool) (s : GoString) (hv : validString s = true) (fuel : Nat)
    (X : GoString) (hf : (appendString go122 s).length ≤ fuel) :
    decodeString fuel (appendString go122 s ++ X) = some (s, X) := by
  have h : appendString go122 s ++ X = 0x22 :: (appendStringLoop go122 s.length s ++ 0x22 :: X) := by
    simp [appendString]
  have hl : (appendString go122 s).length = (appendStringLoop go122 s.length s).length + 2 := by
    simp [appendString]
  rw [h]
  simp only [decodeString, if_true]
  exact unquoteLoop_appendStringLoop go122 s.length s (Nat.le_refl _) hv fuel X (by omega)

/-! ## JSON documents: `Decode` after `Encode` -/

theorem str_lit_0 : str "null" = [0x6E, 0x75, 0x6C, 0x6C] := by decide

theorem str_lit_1 : str "true" = [0x74, 0x72, 0x75, 0x65] := by decide

theorem str_lit_2 : str "false" = [0x66, 0x61, 0x6C, 0x73, 0x65] := by decide

theorem str_lit_3 : str "title" = [0x74, 0x69, 0x74, 0x6C, 0x65] := by decide

theorem str_lit_4 : str "done" = [0x64, 0x6F, 0x6E, 0x65] := by decide

theorem str_lit_5 : str "category" = [0x63, 0x61, 0x74, 0x65, 0x67, 0x6F, 0x72, 0x79] := by decide

theorem str_lit_6 : str "priority" = [0x70, 0x72, 0x69, 0x6F, 0x72, 0x69, 0x74, 0x79] := by decide

theorem str_lit_7 : str "\x7b\"title\":" = [0x7B, 0x22, 0x74, 0x69, 0x74, 0x6C, 0x65, 0x22, 0x3A] := by decide

theorem str_lit_8 : str ",\"done\":" = [0x2C, 0x22, 0x64, 0x6F, 0x6E, 0x65, 0x22, 0x3A] := by decide

theorem str_lit_9 : str ",\"category\":" = [0x2C, 0x22, 0x63, 0x61, 0x74, 0x65, 0x67, 0x6F, 0x72, 0x79, 0x22, 0x3A] := by decide

theorem str_lit_10 : str ",\"priority\":" = [0x2C, 0x22, 0x70, 0x72, 0x69, 0x6F, 0x72, 0x69, 0x74, 0x79, 0x22, 0x3A] := by decide

theorem str_lit_11 : str "\x7d" = [0x7D] := by decide

theorem decodeString_key_title (fuel : Nat) (X : GoString) (hf : 6 ≤ fuel) :
    decodeString fuel (0x22 :: 0x74 :: 0x69 :: 0x74 :: 0x6C :: 0x65 :: 0x22 :: X) = some (str "title", X) := by
  obtain ⟨f, rfl⟩ : ∃ f, fuel = f + 6 := ⟨fuel - 6, by omega⟩
  rfl

theorem decodeString_key_done (fuel : Nat) (X : GoString) (hf : 5 ≤ fuel) :
    decodeString fuel (0x22 :: 0x64 :: 0x6F :: 0x6E :: 0x65 :: 0x22 :: X) = some (str "done", X) := by
  obtain ⟨f, rfl⟩ : ∃ f, fuel = f + 5 := ⟨fuel - 5, by omega⟩
  rfl

theorem decodeString_key_category (fuel : Nat) (X : GoString) (hf : 9 ≤ fuel) :
    decodeString fuel (0x22 :: 0x63 :: 0x61 :: 0x74 :: 0x65 :: 0x67 :: 0x6F :: 0x72 :: 0x79 :: 0x22 :: X) = some (str "category", X) := by
  obtain ⟨f, rfl⟩ : ∃ f, fuel = f + 9 := ⟨fuel - 9, by omega⟩
  rfl

theorem decodeString_key_priority (fuel : Nat) (X : GoString) (hf : 9 ≤ fuel) :
    decodeString fuel (0x22 :: 0x70 :: 0x72 :: 0x69 :: 0x6F :: 0x72 :: 0x69 :: 0x74 :: 0x79 :: 0x22 :: X) = some (str "priority", X) := by
  obtain ⟨f, rfl⟩ : ∃ f, fuel = f + 9 := ⟨fuel - 9, by omega⟩
  rfl

theorem skipSpace_cons (c : Nat) (X : GoString) (hc : isSpace c = false) :
    skipSpace (c :: X) = c :: X := by
  simp only [skipSpace, List.dropWhile_cons, hc, Bool.false_eq_true, if_false]

theorem decodeString_loop (go122 : Bool) (s : GoString) (hv : validString s = true) (fuel : Nat) (X : GoString)
    (hf : (appendStringLoop go122 s.length s).length < fuel) :
    decodeString fuel (0x22 :: (appendStringLoop go122 s.length s ++ 0x22 :: X)) = some (s, X) := by
  simp only [decodeString, if_true]
  exact unquoteLoop_appendStringLoop go122 s.length s (Nat.le_refl _) hv fuel X hf

theorem decodeStringField_loop (go122 : Bool) (s old : GoString) (hv : validString s = true) (fuel : Nat)
    (X : GoString) (hf : (appendStringLoop go122 s.length s).length < fuel) :
    decodeStringField fuel old (0x22 :: (appendStringLoop go122 s.length s ++ 0x22 :: X)) = some (s, X) := by
  have h : (str "null").isPrefixOf (0x22 :: (appendStringLoop go122 s.length s ++ 0x22 :: X)) = false := by
    rw [str_lit_0]
    rfl
  simp only [decodeStringField, h, Bool.false_eq_true, if_false, decodeString_loop go122 s hv fuel X hf]

theorem decodeBoolField_lit (old v : Bool) (X : GoString) :
    decodeBoolField old ((if v = true then str "true" else str "false") ++ X) = some (v, X) := by
  cases v
  · have h1 : (str "null").isPrefixOf (str "false" ++ X) = false := by
      rw [str_lit_0, str_lit_2]; rfl
    have h2 : (str "true").isPrefixOf (str "false" ++ X) = false := by
      rw [str_lit_1, str_lit_2]; rfl
    have h3 : (str "false").isPrefixOf (str "false" ++ X) = true := by
      rw [List.isPrefixOf_iff_prefix]; exact List.prefix_append _ _
    have h4 : (str "false" ++ X).drop 5 = X := by
      rw [str_lit_2]; rfl
    simp only [decodeBoolField, Bool.false_eq_true, if_false, h1, h2, h3, h4, if_true]
  · have h1 : (str "null").isPrefixOf (str "true" ++ X) = false := by
      rw [str_lit_0, str_lit_1]; rfl
    have h2 : (str "true").isPrefixOf (str "true" ++ X) = true := by
      rw [List.isPrefixOf_iff_prefix]; exact List.prefix_append _ _
    have h4 : (str "true" ++ X).drop 4 = X := by
      rw [str_lit_1]; rfl
    simp only [decodeBoolField, if_true, Bool.false_eq_true, if_false, h1, h2, h4]

/-- One member of an object: the key, the colon, the value, and the comma or
closing brace after it. -/
theorem decodeMembers_step (fuel : Nat) (todo todo1 : Todo) (key S V R : GoString) (c d : Nat)
    (hkey : decodeString fuel S = some (key, 0x3A :: c :: V)) (hc : isSpace c = false)
    (hfield : decodeField fuel todo key (c :: V) = some (todo1, d :: R)) (hd : isSpace d = false) :
    decodeMembers (fuel + 1) todo S
      = if d = 0x2C then decodeMembers fuel todo1 (skipSpace R)
        else if d = 0x7D then some (todo1, R) else none := by
  have h3 : isSpace 0x3A = false := rfl
  simp only [decodeMembers, hkey, skipSpace_cons 0x3A _ h3, if_true, skipSpace_cons c V hc, hfield,
    skipSpace_cons d R hd]

theorem str_keys_ne :
    str "done" ≠ str "title" ∧ str "category" ≠ str "title" ∧ str "category" ≠ str "done"
      ∧ str "priority" ≠ str "title" ∧ str "priority" ≠ str "done"
      ∧ str "priority" ≠ str "category" := by decide

theorem decodeField_title (go122 : Bool) (fuel : Nat) (todo : Todo) (v X : GoString)
    (hv : validString v = true) (hf : (appendStringLoop go122 v.length v).length < fuel) :
    decodeField fuel todo (str "title") (0x22 :: (appendStringLoop go122 v.length v ++ 0x22 :: X))
      = some ({ todo with Title := v }, X) := by
  simp only [decodeField, if_true, decodeStringField_loop go122 v todo.Title hv fuel X hf]

theorem decodeField_category (go122 : Bool) (fuel : Nat) (todo : Todo) (v X : GoString)
    (hv : validString v = true) (hf : (appendStringLoop go122 v.length v).length < fuel) :
    decodeField fuel todo (str "category") (0x22 :: (appendStringLoop go122 v.length v ++ 0x22 :: X))
      = some ({ todo with Category := v }, X) := by
  obtain ⟨_, h1, h2, _, _, _⟩ := str_keys_ne
  simp only [decodeField, h1, h2, if_false, if_true,
    decodeStringField_loop go122 v todo.Category hv fuel X hf]

theorem decodeField_priority (go122 : Bool) (fuel : Nat) (todo : Todo) (v X : GoString)
    (hv : validString v = true) (hf : (appendStringLoop go122 v.length v).length < fuel) :
    decodeField fuel todo (str "priority") (0x22 :: (appendStringLoop go122 v.length v ++ 0x22 :: X))
      = some ({ todo with Priority := v }, X) := by
  obtain ⟨_, _, _, h1, h2, h3⟩ := str_keys_ne
  simp only [decodeField, h1, h2, h3, if_false, if_true,
    decodeStringField_loop go122 v todo.Priority hv fuel X hf]

theorem decodeField_done_true (fuel : Nat) (todo : Todo) (X : GoString) :
    decodeField fuel todo (str "done") (0x74 :: 0x72 :: 0x75 :: 0x65 :: X)
      = some ({ todo with Done := true }, X) := by
  have h := decodeBoolField_lit todo.Done true X
  simp only [if_true, str_lit_1, List.cons_append, List.nil_append] at h
  simp only [decodeField, str_keys_ne.1, if_false, if_true, h]

theorem decodeField_done_false (fuel : Nat) (todo : Todo) (X : GoString) :
    decodeField fuel todo (str "done") (0x66 :: 0x61 :: 0x6C :: 0x73 :: 0x65 :: X)
      = some ({ todo with Done := false }, X) := by
  have h := decodeBoolField_lit todo.Done false X
  simp only [Bool.false_eq_true, if_false, str_lit_2, List.cons_append, List.nil_append] at h
  simp only [decodeField, str_keys_ne.1, if_false, if_true, h]

theorem encodeTodo_true (go122 : Bool) (T C P X : GoString) :
    encodeTodo go122 ⟨T, true, C, P⟩ ++ X
      = 0x7B :: 0x22 :: 0x74 :: 0x69 :: 0x74 :: 0x6C :: 0x65 :: 0x22 :: 0x3A :: 0x22 :: (appendStringLoop go122 T.length T ++ 0x22 :: 0x2C :: 0x22 :: 0x64 :: 0x6F :: 0x6E :: 0x65 :: 0x22 :: 0x3A :: 0x74 :: 0x72 :: 0x75 :: 0x65 :: 0x2C :: 0x22 :: 0x63 :: 0x61 :: 0x74 :: 0x65 :: 0x67 :: 0x6F :: 0x72 :: 0x79 :: 0x22 :: 0x3A :: 0x22 :: (appendStringLoop go122 C.length C ++ 0x22 :: 0x2C :: 0x22 :: 0x70 :: 0x72 :: 0x69 :: 0x6F :: 0x72 :: 0x69 :: 0x74 :: 0x79 :: 0x22 :: 0x3A :: 0x22 :: (appendStringLoop go122 P.length P ++ 0x22 :: 0x7D :: X))) := by
  simp only [encodeTodo, appendString, if_true, str_lit_1, str_lit_7, str_lit_8, str_lit_9,
    str_lit_10, str_lit_11, List.append_assoc, List.cons_append, List.nil_append]

theorem encodeTodo_false (go122 : Bool) (T C P X : GoString) :
    encodeTodo go122 ⟨T, false, C, P⟩ ++ X
      = 0x7B :: 0x22 :: 0x74 :: 0x69 :: 0x74 :: 0x6C :: 0x65 :: 0x22 :: 0x3A :: 0x22 :: (appendStringLoop go122 T.length T ++ 0x22 :: 0x2C :: 0x22 :: 0x64 :: 0x6F :: 0x6E :: 0x65 :: 0x22 :: 0x3A :: 0x66 :: 0x61 :: 0x6C :: 0x73 :: 0x65 :: 0x2C :: 0x22 :: 0x63 :: 0x61 :: 0x74 :: 0x65 :: 0x67 :: 0x6F :: 0x72 :: 0x79 :: 0x22 :: 0x3A :: 0x22 :: (appendStringLoop go122 C.length C ++ 0x22 :: 0x2C :: 0x22 :: 0x70 :: 0x72 :: 0x69 :: 0x6F :: 0x72 :: 0x69 :: 0x74 :: 0x79 :: 0x22 :: 0x3A :: 0x22 :: (appendStringLoop go122 P.length P ++ 0x22 :: 0x7D :: X))) := by
  simp only [encodeTodo, appendString, Bool.false_eq_true, if_false, str_lit_2, str_lit_7,
    str_lit_8, str_lit_9, str_lit_10, str_lit_11, List.append_assoc, List.cons_append,
    List.nil_append]

theorem encodeTodo_length (go122 : Bool) (todo : Todo) :
    (encodeTodo go122 todo).length
      = (appendStringLoop go122 todo.Title.length todo.Title).length
        + (appendStringLoop go122 todo.Category.length todo.Category).length
        + (appendStringLoop go122 todo.Priority.length todo.Priority).length
        + (if todo.Done = true then 52 else 53) := by
  cases hD : todo.Done <;>
    simp only [encodeTodo, appendString, hD, if_true, Bool.false_eq_true, if_false, str_lit_1,
      str_lit_2, str_lit_7, str_lit_8, str_lit_9, str_lit_10, str_lit_11, List.length_append,
      List.length_cons, List.length_nil] <;> omega

theorem decodeElement_object (fuel : Nat) (S : GoString) :
    decodeElement fuel (0x7B :: 0x22 :: S) = decodeMembers fuel ⟨[], false, [], []⟩ (0x22 :: S) := by
  have h : (str "null").isPrefixOf (0x7B :: 0x22 :: S) = false := by
    rw [str_lit_0]; rfl
  have h2 : isSpace 0x22 = false := rfl
  simp only [decodeElement, h, Bool.false_eq_true, if_false, if_true,
    skipSpace_cons 0x22 S h2, Nat.reduceEqDiff]

theorem decodeElement_encodeTodo (go122 : Bool) (todo : Todo) (hT : validString todo.Title = true)
    (hC : validString todo.Category = true) (hP : validString todo.Priority = true)
    (fuel : Nat) (X : GoString) (hf : (encodeTodo go122 todo).length ≤ fuel) :
    decodeElement fuel (encodeTodo go122 todo ++ X) = some (todo, X) := by
  have hlen := encodeTodo_length go122 todo
  obtain ⟨T, D, C, P⟩ := todo
  simp only at hT hC hP hlen
  obtain ⟨f, rfl⟩ : ∃ f, fuel = f + 4 := ⟨fuel - 4, by split_ifs at hlen <;> omega⟩
  have hq : isSpace 0x22 = false := rfl
  cases D
  · simp only [Bool.false_eq_true, if_false] at hlen
    rw [encodeTodo_false go122, decodeElement_object]
    rw [decodeMembers_step (f + 3) _ _ (str "title") _ _ _ 0x22 0x2C
      (decodeString_key_title (f + 3) _ (by omega)) rfl
      (decodeField_title go122 (f + 3) _ T _ hT (by omega)) rfl]
    simp only [if_true, skipSpace_cons 0x22 _ hq]
    rw [decodeMembers_step (f + 2) _ _ (str "done") _ _ _ 0x66 0x2C
      (decodeString_key_done (f + 2) _ (by omega)) rfl
      (decodeField_done_false (f + 2) _ _) rfl]
    simp only [if_true, skipSpace_cons 0x22 _ hq]
    rw [decodeMembers_step (f + 1) _ _ (str "category") _ _ _ 0x22 0x2C
      (decodeString_key_category (f + 1) _ (by omega)) rfl
      (decodeField_category go122 (f + 1) _ C _ hC (by omega)) rfl]
    simp only [if_true, skipSpace_cons 0x22 _ hq]
    rw [decodeMembers_step f _ _ (str "priority") _ _ _ 0x22 0x7D
      (decodeString_key_priority f _ (by omega)) rfl
      (decodeField_priority go122 f _ P _ hP (by omega)) rfl]
    simp only [Nat.reduceEqDiff, if_false, if_true]
  · simp only [if_true] at hlen
    rw [encodeTodo_true go122, decodeElement_object]
    rw [decodeMembers_step (f + 3) _ _ (str "title") _ _ _ 0x22 0x2C
      (decodeString_key_title (f + 3) _ (by omega)) rfl
      (decodeField_title go122 (f + 3) _ T _ hT (by omega)) rfl]
    simp only [if_true, skipSpace_cons 0x22 _ hq]
    rw [decodeMembers_step (f + 2) _ _ (str "done") _ _ _ 0x74 0x2C
      (decodeString_key_done (f + 2) _ (by omega)) rfl
      (decodeField_done_true (f + 2) _ _) rfl]
    simp only [if_true, skipSpace_cons 0x22 _ hq]
    rw [decodeMembers_step (f + 1) _ _ (str "category") _ _ _ 0x22 0x2C
      (decodeString_key_category (f + 1) _ (by omega)) rfl
      (decodeField_category go122 (f + 1) _ C _ hC (by omega)) rfl]
    simp only [if_true, skipSpace_cons 0x22 _ hq]
    rw [decodeMembers_step f _ _ (str "priority") _ _ _ 0x22 0x7D
      (decodeString_key_priority f _ (by omega)) rfl
      (decodeField_priority go122 f _ P _ hP (by omega)) rfl]
    simp only [Nat.reduceEqDiff, if_false, if_true]

theorem encodeTodo_head (go122 : Bool) (todo : Todo) (X : GoString) :
    ∃ S, encodeTodo go122 todo ++ X = 0x7B :: 0x22 :: S := by
  obtain ⟨T, D, C, P⟩ := todo
  cases D
  · exact ⟨_, encodeTodo_false go122 T C P X⟩
  · exact ⟨_, encodeTodo_true go122 T C P X⟩

theorem encodeElems_cons_cons (go122 : Bool) (t t1 : Todo) (r : List Todo) :
    encodeElems go122 (t :: t1 :: r) = encodeTodo go122 t ++ [0x2C] ++ encodeElems go122 (t1 :: r) := rfl

theorem encodeElems_head (go122 : Bool) (t : Todo) (r : List Todo) (X : GoString) :
    ∃ S, encodeElems go122 (t :: r) ++ X = 0x7B :: 0x22 :: S := by
  cases r with
  | nil => exact encodeTodo_head go122 t X
  | cons t1 r =>
    rw [encodeElems_cons_cons go122, List.append_assoc, List.append_assoc]
    exact encodeTodo_head go122 t _

theorem decodeElems_encodeElems (go122 : Bool) (r : List Todo) :
    ∀ (t : Todo), (∀ x ∈ t :: r, validString x.Title = true ∧ validString x.Category = true
        ∧ validString x.Priority = true) →
      ∀ (fuel : Nat) (X : GoString), (encodeElems go122 (t :: r)).length < fuel →
        decodeElems fuel (encodeElems go122 (t :: r) ++ 0x5D :: X) = some (t :: r, X) := by
  induction r with
  | nil =>
    intro t hv fuel X hf
    obtain ⟨f, rfl⟩ : ∃ f, fuel = f + 1 := ⟨fuel - 1, by omega⟩
    obtain ⟨h1, h2, h3⟩ := hv t (by simp)
    have hb : isSpace 0x5D = false := rfl
    have he : encodeElems go122 [t] = encodeTodo go122 t := rfl
    rw [he] at hf ⊢
    simp only [decodeElems, decodeElement_encodeTodo go122 t h1 h2 h3 f (0x5D :: X) (by omega),
      skipSpace_cons 0x5D X hb, Nat.reduceEqDiff, if_false, if_true]
  | cons t1 r ih =>
    intro t hv fuel X hf
    obtain ⟨f, rfl⟩ : ∃ f, fuel = f + 1 := ⟨fuel - 1, by omega⟩
    obtain ⟨h1, h2, h3⟩ := hv t (by simp)
    have hc : isSpace 0x2C = false := rfl
    have hb : isSpace 0x7B = false := rfl
    rw [encodeElems_cons_cons go122] at hf ⊢
    simp only [List.length_append, List.length_cons, List.length_nil] at hf
    have hrec := ih t1 (fun x hx => hv x (by simp [hx])) f X (by omega)
    obtain ⟨S, hS⟩ := encodeElems_head go122 t1 r (0x5D :: X)
    rw [List.append_assoc, List.append_assoc, List.singleton_append]
    simp only [decodeElems, decodeElement_encodeTodo go122 t h1 h2 h3 f _ (by omega),
      skipSpace_cons 0x2C _ hc, if_true]
    rw [hS, skipSpace_cons 0x7B _ hb, ← hS, hrec]

/-- C8, as amended: for every store whose titles, categories and priorities
are valid UTF-8, nil or not, `saveTodos` (when `os.Create` succeeds, under
either release of `encoding/json`) followed by `loadTodos` on the file
written, in a process whose `todos` is still nil, gives back the same sequence
of records. -/
theorem save_load_roundtrip (go122 : Bool) (todos : List Todo) (isNil : Bool) (file : Option GoString)
    (hv : ∀ x ∈ todos, validString x.Title = true ∧ validString x.Category = true
      ∧ validString x.Priority = true) :
    loadTodos (saveTodos go122 todos isNil none file).1 = some (todos, []) := by
  have hdec : decodeTodos (encode go122 todos isNil) = some todos := by
    cases todos with
    | nil => cases isNil <;> rfl
    | cons t r =>
      have hne : ¬ (isNil = true ∧ t :: r = []) := by simp
      have hdata : encode go122 (t :: r) isNil = 0x5B :: (encodeElems go122 (t :: r) ++ 0x5D :: [0x0A]) := by
        simp only [encode, hne, if_false, List.append_assoc, List.cons_append, List.nil_append]
      obtain ⟨S, hS⟩ := encodeElems_head go122 t r (0x5D :: [0x0A])
      have hrec := decodeElems_encodeElems go122 r t hv (encode go122 (t :: r) isNil).length [0x0A]
        (by rw [hdata]; simp; omega)
      have h5 : isSpace 0x5B = false := rfl
      have h7 : isSpace 0x7B = false := rfl
      have hnull : (str "null").isPrefixOf (0x5B :: 0x7B :: 0x22 :: S) = false := by
        rw [str_lit_0]; rfl
      rw [hS] at hrec
      simp only [decodeTodos]
      rw [hdata] at hrec ⊢
      rw [hS] at hrec ⊢
      simp only [skipSpace_cons 0x5B _ h5, hnull, Bool.false_eq_true, if_false, if_true,
        skipSpace_cons 0x7B _ h7, Nat.reduceEqDiff, hrec]
  simp only [saveTodos, loadTodos, hdec]

/-- Witness of C8 as amended: two records with escapes and runes of two and
three bytes. -/
theorem save_load_roundtrip_witness :
    loadTodos (saveTodos true [⟨str "a\"b<\n\\", true, str "Café", str " "⟩,
        ⟨[], false, str "€", str "low"⟩] false none none).1
      = some ([⟨str "a\"b<\n\\", true, str "Café", str " "⟩,
        ⟨[], false, str "€", str "low"⟩], []) :=
  save_load_roundtrip true _ false none (by decide)

/-- Counterexample to C8 as stated: the title line consisting of the single
byte `0xFF`, which is not valid UTF-8, is stored by `addTodo` as entered, is
written by `saveTodos` as the escape of U+FFFD, and is loaded by `loadTodos`
as the three bytes `EF BF BD`. -/
theorem save_load_invalid_utf8 :
    (addTodo sampleTables [] [0xFF] (str "Home") [str "Low"]).map (fun r => r.1)
      = some [⟨[0xFF], false, str "Home", str "Low"⟩]
    ∧ (saveTodos true [⟨[0xFF], false, str "Home", str "Low"⟩] false none none).1
      = some (str "[\x7b\"title\":\"\\ufffd\",\"done\":false,\"category\":\"Home\",\"priority\":\"Low\"\x7d]\n")
    ∧ loadTodos (saveTodos true [⟨[0xFF], false, str "Home", str "Low"⟩] false none none).1
      = some ([⟨[0xEF, 0xBF, 0xBD], false, str "Home", str "Low"⟩], [])
    ∧ loadTodos (saveTodos true [⟨[0xFF], false, str "Home", str "Low"⟩] false none none).1
      ≠ some ([⟨[0xFF], false, str "Home", str "Low"⟩], []) := by
  set_option maxRecDepth 100000 in
  refine ⟨by decide, by decide, by decide, by decide⟩

/-! ## Sample runs of the embedding -/

/-- The numbers `getTodoID` returns for some lines: a position, no number, the
empty line, the least 64-bit integer (the subtraction wraps) and a number
beyond the 64-bit range (scan error). -/
theorem getTodoID_samples :
    getTodoID (str "2") = 1 ∧ getTodoID (str "abc") = -1 ∧ getTodoID (str "") = -1
    ∧ getTodoID (str "+7") = 6 ∧ getTodoID (str "0") = -1
    ∧ getTodoID (str "-9223372036854775808") = 9223372036854775807
    ∧ getTodoID (str "9223372036854775808") = -1 := by
  decide

/-- The scenario of the specification: two adds, mark position 2 as done, delete
position 1; one record is left, done, at position 1. -/
theorem add_mark_delete_sample :
    (addTodo sampleTables [] (str "Buy milk") (str "Home") [str "Low"]).map (fun r => r.1)
      = some [⟨str "Buy milk", false, str "Home", str "Low"⟩]
    ∧ (addTodo sampleTables [⟨str "Buy milk", false, str "Home", str "Low"⟩]
          (str "Meeting") (str "Work") [str "high"]).map (fun r => r.1)
      = some [⟨str "Buy milk", false, str "Home", str "Low"⟩,
              ⟨str "Meeting", false, str "Work", str "high"⟩]
    ∧ (markTodoDone [⟨str "Buy milk", false, str "Home", str "Low"⟩,
          ⟨str "Meeting", false, str "Work", str "high"⟩] (str "2")).1
      = [⟨str "Buy milk", false, str "Home", str "Low"⟩,
         ⟨str "Meeting", true, str "Work", str "high"⟩]
    ∧ (deleteTodo [⟨str "Buy milk", false, str "Home", str "Low"⟩,
          ⟨str "Meeting", true, str "Work", str "high"⟩] (str "1")).1
      = [⟨str "Meeting", true, str "Work", str "high"⟩]
    ∧ listTodos [⟨str "Meeting", true, str "Work", str "high"⟩]
      = println (str "\n📌 Your To-Do List:")
        ++ println (str "1. [Done] Meeting (Category: Work, Priority: high)") := by
  decide

/-- The file `saveTodos` writes for a store of one record, for the nil slice
and for an empty slice that is not nil. -/
theorem saveTodos_samples :
    (saveTodos true [⟨str "Buy milk", false, str "Home", str "Low"⟩] false none none).1
      = some (str "[\x7b\"title\":\"Buy milk\",\"done\":false,\"category\":\"Home\",\"priority\":\"Low\"\x7d]\n")
    ∧ (saveTodos true [⟨[0x08, 0x0C], true, [], []⟩] false none none).1
      = some (str "[\x7b\"title\":\"\\b\\f\",\"done\":true,\"category\":\"\",\"priority\":\"\"\x7d]\n")
    ∧ (saveTodos false [⟨[0x08, 0x0C], true, [], []⟩] false none none).1
      = some (str "[\x7b\"title\":\"\\u0008\\u000c\",\"done\":true,\"category\":\"\",\"priority\":\"\"\x7d]\n")
    ∧ (saveTodos true [] true none none).1 = some (str "null\n")
    ∧ (saveTodos true [] false none none).1 = some (str "[]\n")
    ∧ saveTodos true [] true (some (str "open todos.json: permission denied")) (some (str "[]\n"))
      = (some (str "[]\n"), str "❌ Error saving to-dos: open todos.json: permission denied\n") := by
  set_option maxRecDepth 100000 in
  refine ⟨by decide, by decide, by decide, by decide, by decide, by decide⟩

/-- What `loadTodos` reads: no file, the two empty documents, a document with
white space, members in another order, escapes and a surrogate pair, and a
document with a number for the title, which is outside the model (`none`). -/
theorem loadTodos_samples :
    loadTodos none = some ([], println (str "📂 No existing to-dos found."))
    ∧ loadTodos (some (str "null\n")) = some ([], [])
    ∧ loadTodos (some (str "[]\n")) = some ([], [])
    ∧ loadTodos (some (str " [ \x7b \"done\" : true , \"title\" : \"a\\u00e9\\n\\ud83d\\ude00\" \x7d , null ] "))
      = some ([⟨str "aé\n😀", true, [], []⟩, ⟨[], false, [], []⟩], [])
    ∧ loadTodos (some (str "[\x7b\"title\":7\x7d]")) = none := by
  set_option maxRecDepth 100000 in
  refine ⟨by decide, by decide, by decide, by decide, by decide⟩

/-- The case-insensitive comparisons on some strings: `strings.EqualFold` takes
the Kelvin sign for `k`, `strings.ToLower` maps ASCII letters, and every byte
that is not valid UTF-8 counts as the rune U+FFFD. -/
theorem strings_samples :
    EqualFold sampleTables (str "WORK") (str "wor\u212A") = true
    ∧ EqualFold sampleTables (str "Work") (str "Wor") = false
    ∧ EqualFold sampleTables [0xFF] [0xFE] = true
    ∧ ToLower sampleTables (str "HiGh") = str "high"
    ∧ ToLower sampleTables [0x41, 0xFF] = [0x61, 0xEF, 0xBF, 0xBD]
    ∧ Contains (str "meeting") (str "eet") = true
    ∧ Contains (str "meeting") (str "") = true
    ∧ Contains (str "meeting") (str "eat") = false := by
  decide

end TodoList
